import Mathlib

/-!
# zviz HTML builder (`src/core/channelz/zviz/html.cc`)

A shallow embedding of the HTML builder of `grpc_zviz::html` and proofs of its
specified properties.

Conventions of the embedding.

* A `std::string` / `absl::string_view` is a `List Char`; string constants of the
  source are written `"...".toList`.
* An `int` is an `Int` in the range of a 32-bit `int`; the only arithmetic of the source
  is `column + 1` and `row + 1`, whose result is taken modulo `2^32` (`addInt`): below
  the largest `int` it is the exact sum, at the largest `int` the addition overflows and
  the two's-complement result, the smallest `int`, is taken. The loop counters of
  `Render` stay below their bounds, so `++r` and `++c` are exact.
* A `Container&` / `Table&` that the source mutates in place is passed and returned
  explicitly (state passing).
* `absl::StrReplaceAll` is library code; it is modelled by `StrReplaceAll` below
  following its documented behaviour.
-/

namespace grpc_zviz.html

/-! ## `int` arithmetic -/

/-- The largest value of a 32-bit `int`. -/
def INT_MAX : Int := 2147483647

/-- The value of type `int` that stands for the integer `x`: `x` reduced modulo `2^32`
into the range `-2^31 .. 2^31 - 1`. -/
def wrapInt (x : Int) : Int := (x + 2147483648) % 4294967296 - 2147483648

/-- The `int` addition `a + b` of the source. -/
def addInt (a b : Int) : Int := wrapInt (a + b)

/-! ## `absl::StrReplaceAll` -/

/-- The replacement chosen by `absl::StrReplaceAll` at the front of `s`: among the
pairs `(old, new)` with `old` non-empty and a prefix of `s`, the one with the longest
`old` (patterns with an empty `old` are ignored by the library). Among equally long
candidates the earlier pair of the list is taken. -/
def bestMatch : List (List Char × List Char) → List Char → Option (List Char × List Char)
  | [], _ => none
  | (old, new) :: rest, s =>
    match bestMatch rest s with
    | none => if old ≠ [] ∧ old.isPrefixOf s then some (old, new) else none
    | some (o, n) =>
      if old ≠ [] ∧ old.isPrefixOf s ∧ o.length ≤ old.length then some (old, new)
      else some (o, n)

/-- The scan of `absl::StrReplaceAll`: left to right, the earliest match is replaced,
the replaced characters are skipped (`skip` counts the characters of the matched
pattern still to be passed over) and the replacement text is not scanned again. -/
def replaceFrom (subs : List (List Char × List Char)) : Nat → List Char → List Char
  | _, [] => []
  | skip + 1, _ :: cs => replaceFrom subs skip cs
  | 0, c :: cs =>
    match bestMatch subs (c :: cs) with
    | some (old, new) => new ++ replaceFrom subs (old.length - 1) cs
    | none => c :: replaceFrom subs 0 cs

/-- Model of `absl::StrReplaceAll(s, replacements)`. -/
def StrReplaceAll (s : List Char) (replacements : List (List Char × List Char)) : List Char :=
  replaceFrom replacements 0 s

/-! ## `HtmlEscape` -/

/-- The function `std::string HtmlEscape(absl::string_view text)`, html.cc lines 24-30. -/
def HtmlEscape (text : List Char) : List Char :=
  StrReplaceAll text
    [("&".toList, "&amp;".toList),
     ("<".toList, "&lt;".toList),
     (">".toList, "&gt;".toList),
     ("\"".toList, "&quot;".toList),
     ("\x27".toList, "&apos;".toList)]

/-- The per-character image named by the specification of `HtmlEscape`: each of the five
markup characters maps to its named entity, every other character to itself. -/
def escapeChar (c : Char) : List Char :=
  if c = '&' then "&amp;".toList
  else if c = '<' then "&lt;".toList
  else if c = '>' then "&gt;".toList
  else if c = '"' then "&quot;".toList
  else if c = '\x27' then "&apos;".toList
  else [c]

/-- The image of a character under two rounds of escaping, as the specification lists it. -/
def doubleEscapeChar (c : Char) : List Char :=
  if c = '&' then "&amp;amp;".toList
  else if c = '<' then "&amp;lt;".toList
  else if c = '>' then "&amp;gt;".toList
  else if c = '"' then "&amp;quot;".toList
  else if c = '\x27' then "&amp;apos;".toList
  else [c]

/-- The five named entities that `HtmlEscape` emits. -/
def entities : List (List Char) :=
  ["&amp;".toList, "&lt;".toList, "&gt;".toList, "&quot;".toList, "&apos;".toList]

/-! ## The node tree

`html.h` declares the classes; `html.cc` holds `Render` and the builder methods. The
classes are the three kinds of `Item`: a text leaf, a `Container` and a `Table`. -/

mutual
/-- An owned child node (`std::unique_ptr<Item>`): text leaf, container or table. -/
inductive Item where
  | text (text_ : List Char) : Item
  | container (c : Container) : Item
  | table (t : Table) : Item
/-- The fields of `Container`: `tag_` (optional), `attributes_` in iteration order, and
`items_`. -/
inductive Container where
  | mk (tag_ : Option (List Char)) (attributes_ : List (List Char × List Char))
      (items_ : List Item) : Container
/-- The fields of `Table`: `clazz_`, the map `cells_` keyed by `(column, row)` (an
association list whose keys are pairwise distinct, searched by `find`), `num_columns_`,
`num_rows_`, `num_header_rows_`, `num_header_columns_`. -/
inductive Table where
  | mk (clazz_ : List Char) (cells_ : List ((Int × Int) × Container))
      (num_columns_ num_rows_ num_header_rows_ num_header_columns_ : Int) : Table
end

namespace Container

def tag_ : Container → Option (List Char)
  | .mk t _ _ => t

def attributes_ : Container → List (List Char × List Char)
  | .mk _ a _ => a

def items_ : Container → List Item
  | .mk _ _ i => i

end Container

namespace Table

def clazz_ : Table → List Char
  | .mk z _ _ _ _ _ => z

def cells_ : Table → List ((Int × Int) × Container)
  | .mk _ m _ _ _ _ => m

def num_columns_ : Table → Int
  | .mk _ _ n _ _ _ => n

def num_rows_ : Table → Int
  | .mk _ _ _ n _ _ => n

def num_header_rows_ : Table → Int
  | .mk _ _ _ _ n _ => n

def num_header_columns_ : Table → Int
  | .mk _ _ _ _ _ n => n

end Table

/-! ## Rendering -/

/-- The attribute loop of `Container::Render`, html.cc lines 43-45. -/
def renderAttributes : List (List Char × List Char) → List Char
  | [] => []
  | (name, value) :: rest =>
    " ".toList ++ name ++ "=\"".toList ++ HtmlEscape value ++ "\"".toList
      ++ renderAttributes rest

/-- One pass of the column loop in a header row, html.cc lines 107-112; `found` is the
rendering of the cell that `cells_.find` returned, if any. -/
def headerCell (found : Option (List Char)) : List Char :=
  match found with
  | none => "<th/>".toList
  | some inner => "<th>".toList ++ inner ++ "</th>".toList

/-- One pass of the column loop in a body row, html.cc lines 124-131. -/
def bodyCell (num_header_columns_ : Int) (c : Int) (found : Option (List Char)) : List Char :=
  let tag := if c < num_header_columns_ then "th".toList else "td".toList
  match found with
  | none => "<".toList ++ tag ++ "/>".toList
  | some inner => "<".toList ++ tag ++ ">".toList ++ inner ++ "</".toList ++ tag ++ ">".toList

/-- The values `c = 0, 1, ...` of `for (int c = 0; c < num_columns_; ++c)`. -/
def columnRange (num_columns_ : Int) : List Int :=
  (List.range num_columns_.toNat).map Int.ofNat

/-- The values of `r` visited by `for (; r < bound; ++r)` when entered with `r = start`. -/
def rowRange (start bound : Int) : List Int :=
  (List.range (bound - start).toNat).map (fun i => start + Int.ofNat i)

/-- A header row, html.cc lines 105-114, over the rendered cell map. -/
def headerRow (rendered : List ((Int × Int) × List Char)) (num_columns_ : Int) (r : Int) :
    List Char :=
  "<tr>".toList
    ++ (columnRange num_columns_).flatMap (fun c => headerCell (rendered.lookup (c, r)))
    ++ "</tr>".toList

/-- A body row, html.cc lines 122-133, over the rendered cell map. -/
def bodyRow (rendered : List ((Int × Int) × List Char)) (num_columns_ num_header_columns_ : Int)
    (r : Int) : List Char :=
  "<tr>".toList
    ++ (columnRange num_columns_).flatMap
        (fun c => bodyCell num_header_columns_ c (rendered.lookup (c, r)))
    ++ "</tr>".toList

/-- The body of `Table::Render`, html.cc lines 98-140, given for every key of `cells_` the
result of `it->second.Render()`. -/
def renderTable (clazz_ : List Char) (rendered : List ((Int × Int) × List Char))
    (num_columns_ num_rows_ num_header_rows_ num_header_columns_ : Int) : List Char :=
  let s := "<table class=\"".toList ++ HtmlEscape clazz_ ++ "\">".toList
  let s := if 0 < num_header_rows_ then
      s ++ "<thead>".toList
        ++ (rowRange 0 num_header_rows_).flatMap (headerRow rendered num_columns_)
        ++ "</thead>".toList
    else s
  -- the value of `r` after the header block
  let r := if 0 < num_header_rows_ then num_header_rows_ else 0
  let s := s ++ "<tbody>".toList
  let s := if r < num_rows_ then
      s ++ (rowRange r num_rows_).flatMap (bodyRow rendered num_columns_ num_header_columns_)
    else s
  let s := s ++ "</tbody>".toList
  s ++ "</table>".toList

/-- Modelled from the spec: `Text::Render` of `html.h`; the value of a text leaf is kept
unescaped and is escaped at render time. -/
def Text.Render (text_ : List Char) : List Char := HtmlEscape text_

mutual
/-- The virtual `Item::Render`, dispatching on the kind of node. -/
def Item.Render : Item → List Char
  | .text text_ => Text.Render text_
  | .container c => c.Render
  | .table t => t.Render
/-- The method `Container::Render`, html.cc lines 39-59. -/
def Container.Render : Container → List Char
  | .mk none _ items_ => renderItems items_
  | .mk (some tag) attributes_ [] =>
    "<".toList ++ tag ++ renderAttributes attributes_ ++ "/>".toList
  | .mk (some tag) attributes_ (i :: is) =>
    "<".toList ++ tag ++ renderAttributes attributes_ ++ ">".toList
      ++ renderItems (i :: is)
      ++ "</".toList ++ tag ++ ">".toList
/-- The child loop of `Container::Render`, html.cc lines 52-54. -/
def renderItems : List Item → List Char
  | [] => []
  | item :: rest => item.Render ++ renderItems rest
/-- The method `Table::Render`, html.cc lines 98-140: `renderTable` over the renderings of
the cells. -/
def Table.Render : Table → List Char
  | .mk clazz_ cells_ num_columns_ num_rows_ num_header_rows_ num_header_columns_ =>
    renderTable clazz_ (renderCells cells_) num_columns_ num_rows_ num_header_rows_
      num_header_columns_
/-- The rendering `it->second.Render()` of every entry of `cells_`, under its key. -/
def renderCells : List ((Int × Int) × Container) → List ((Int × Int) × List Char)
  | [] => []
  | (key, cell) :: rest => (key, cell.Render) :: renderCells rest
end

/-! ## Builders -/

namespace Container

/-- Modelled from the spec: the constructor `Container(tag)` of `html.h`, a tagged
container without attributes and without children. -/
def new (tag : List Char) : Container := .mk (some tag) [] []

/-- Modelled from the spec: the default-constructed, untagged container of `html.h`. -/
def untagged : Container := .mk none [] []

/-- Setting or overwriting one entry of the attribute mapping, keeping the position of
an entry that is already there. -/
def setAttribute (name value : List Char) :
    List (List Char × List Char) → List (List Char × List Char)
  | [] => [(name, value)]
  | (n, v) :: rest =>
    if n = name then (n, value) :: rest else (n, v) :: setAttribute name value rest

/-- Modelled from the spec: `Container::Attribute(name, value)` of `html.h`, which sets or
overwrites an attribute of a tagged container and is a no-op on an untagged one. -/
def Attribute (c : Container) (name value : List Char) : Container :=
  match c with
  | .mk none attributes_ items_ => .mk none attributes_ items_
  | .mk (some tag) attributes_ items_ =>
    .mk (some tag) (setAttribute name value attributes_) items_

/-- Modelled from the spec: `Container::NewItem<T>(args...)` of `html.h`, which appends
the new node as the last child (the reference it returns designates that child; the
callers below apply their further calls to the child before it is appended). -/
def NewItem (c : Container) (item : Item) : Container :=
  match c with
  | .mk tag_ attributes_ items_ => .mk tag_ attributes_ (items_ ++ [item])

/-- Modelled from the spec: `Container::Text(value)` of `html.h`, which appends a text
leaf holding the unescaped value. -/
def Text (c : Container) (text : List Char) : Container :=
  c.NewItem (Item.text text)

/-- The method `Container::Link`, html.cc lines 61-66. -/
def Link (c : Container) (text url : List Char) : Container :=
  c.NewItem (Item.container (((Container.new "a".toList).Attribute "href".toList url).Text text))

/-- The method `Container::AddStyle`, html.cc lines 79-82. -/
def AddStyle (c : Container) (style : List Char) : Container :=
  c.NewItem (Item.container ((Container.new "style".toList).Text style))

end Container

/-- The free function `Div`, html.cc lines 32-37; the callback `f` receives the new
container by reference and is modelled as a function from its state to its new state. -/
def Div (clazz : List Char) (f : Container → Container) : Container :=
  f ((Container.new "div".toList).Attribute "class".toList clazz)

namespace Table

/-- Modelled from the spec: a table on which `Cell` was never called, with the given
class and header counts (constructor and header setters of `html.h`). -/
def new (clazz : List Char) (num_header_rows num_header_columns : Int) : Table :=
  .mk clazz [] 0 0 num_header_rows num_header_columns

/-- The method `Table::Cell`, html.cc lines 88-96: the table after the call, and the value of the
cell container that the returned reference designates. -/
def Cell (t : Table) (column row : Int) : Table × Container :=
  match t with
  | .mk clazz_ cells_ num_columns_ num_rows_ num_header_rows_ num_header_columns_ =>
    let num_columns_ := max num_columns_ (addInt column 1)
    let num_rows_ := max num_rows_ (addInt row 1)
    match cells_.lookup (column, row) with
    | none =>
      (.mk clazz_ (cells_ ++ [((column, row), Container.new "div".toList)])
          num_columns_ num_rows_ num_header_rows_ num_header_columns_,
        Container.new "div".toList)
    | some cell =>
      (.mk clazz_ cells_ num_columns_ num_rows_ num_header_rows_ num_header_columns_, cell)

/-- Overwriting the value stored under one key of the cell map. -/
def storeCell (key : Int × Int) (cell : Container) :
    List ((Int × Int) × Container) → List ((Int × Int) × Container)
  | [] => []
  | (k, v) :: rest =>
    if k = key then (k, cell) :: rest else (k, v) :: storeCell key cell rest

/-- A write through the reference returned by `Cell(column, row)`: the caller's
mutation `f` is applied to the designated cell, in place. -/
def CellDo (t : Table) (column row : Int) (f : Container → Container) : Table :=
  match t.Cell column row with
  | (.mk clazz_ cells_ num_columns_ num_rows_ num_header_rows_ num_header_columns_, cell) =>
    .mk clazz_ (storeCell (column, row) (f cell) cells_) num_columns_ num_rows_
      num_header_rows_ num_header_columns_

end Table

/-! ## References returned by the builders -/

/-- What a `Container&` returned by a builder method designates, relative to the
container the method was called on: that container (`return *this`), or its last child
(the reference that `NewItem` returns for the node it has just appended). -/
inductive Ref where
  | self : Ref
  | lastItem : Ref

/-- The items of a container after a call `g` made through a reference to its last
child, when that child is a container: the child is mutated in place. -/
def modifyLastItem (g : Container → Container) : List Item → List Item
  | [] => []
  | item :: rest =>
    match rest with
    | [] =>
      match item with
      | .container child => [Item.container (g child)]
      | other => [other]
    | _ :: _ => item :: modifyLastItem g rest

namespace Container

/-- A call `g` made through a reference `r` obtained from the container `c`: the
designated container is mutated in place and `c` is returned in its new state. -/
def through (c : Container) (r : Ref) (g : Container → Container) : Container :=
  match r with
  | .self => g c
  | .lastItem =>
    match c with
    | .mk tag_ attributes_ items_ => .mk tag_ attributes_ (modifyLastItem g items_)

/-- The method `Container::Div`, html.cc lines 68-71: the container after the call, and
the returned reference, which is the one `NewItem` returns. -/
def Div (c : Container) (clazz : List Char) (f : Container → Container) : Container × Ref :=
  (c.NewItem (Item.container (grpc_zviz.html.Div clazz f)), Ref.lastItem)

/-- The method `Container::NewDiv`, html.cc lines 73-77: the container after the call,
and the returned reference `div`, the one `NewItem` returned. -/
def NewDiv (c : Container) (clazz : List Char) : Container × Ref :=
  let c := c.NewItem (Item.container (Container.new "div".toList))
  let c := c.through Ref.lastItem (fun div => div.Attribute "class".toList clazz)
  (c, Ref.lastItem)

end Container

/-! ## The grid as the specification describes it -/

/-- The element name that the specification gives the cell at `(column, row)`: decided
by the row first and the column second. -/
def cellTag (num_header_rows num_header_columns column row : Int) : List Char :=
  if row < num_header_rows then "th".toList
  else if column < num_header_columns then "th".toList
  else "td".toList

/-- The markup of one grid position with element name `tag`: self-closing when no cell
is stored there, otherwise the element wrapped around the rendering of the cell. -/
def cellElement (tag : List Char) (found : Option Container) : List Char :=
  match found with
  | none => "<".toList ++ tag ++ "/>".toList
  | some cell => "<".toList ++ tag ++ ">".toList ++ cell.Render ++ "</".toList ++ tag ++ ">".toList

namespace Table

/-- The cell elements of row `r` as the specification describes them: one per column
`0, 1, ..., num_columns_ - 1`, in column order. -/
def rowCells (t : Table) (r : Int) : List (List Char) :=
  (columnRange t.num_columns_).map (fun c =>
    cellElement (cellTag t.num_header_rows_ t.num_header_columns_ c r) (t.cells_.lookup (c, r)))

/-- The text of a `<tr>` row holding the given cell elements. -/
def rowText (cells : List (List Char)) : List Char :=
  "<tr>".toList ++ cells.flatten ++ "</tr>".toList

/-- A sequence of `Cell(column, row)` calls, each followed by the caller's write `f`
through the returned reference (the identity when nothing is added). -/
def CellCalls (t : Table) (calls : List ((Int × Int) × (Container → Container))) : Table :=
  calls.foldl (fun acc call => acc.CellDo call.1.1 call.1.2 call.2) t

end Table

/-! ## Occurrence checks on rendered text -/

/-- Whether the two characters `<s` occur next to each other somewhere in `l`; every
occurrence of `<script>` contains them. -/
def hasLtS : List Char → Bool
  | [] => false
  | c :: rest => (c == '<' && rest.head? == some 's') || hasLtS rest

/-- Whether the text `p` occurs in `l` as a contiguous run of characters. -/
def occursIn (p : List Char) : List Char → Bool
  | [] => p.isEmpty
  | c :: rest => p.isPrefixOf (c :: rest) || occursIn p rest

/-! ## Lemmas on `HtmlEscape` -/

theorem replaceFrom_html_cons (c : Char) (cs : List Char) :
    replaceFrom
      [("&".toList, "&amp;".toList), ("<".toList, "&lt;".toList), (">".toList, "&gt;".toList),
       ("\"".toList, "&quot;".toList), ("\x27".toList, "&apos;".toList)] 0 (c :: cs)
    = escapeChar c ++
      replaceFrom
        [("&".toList, "&amp;".toList), ("<".toList, "&lt;".toList), (">".toList, "&gt;".toList),
         ("\"".toList, "&quot;".toList), ("\x27".toList, "&apos;".toList)] 0 cs := by
  by_cases h1 : c = '&'
  · subst h1; simp [replaceFrom, bestMatch, escapeChar, List.isPrefixOf]
  by_cases h2 : c = '<'
  · subst h2; simp [replaceFrom, bestMatch, escapeChar, List.isPrefixOf]
  by_cases h3 : c = '>'
  · subst h3; simp [replaceFrom, bestMatch, escapeChar, List.isPrefixOf]
  by_cases h4 : c = '"'
  · subst h4; simp [replaceFrom, bestMatch, escapeChar, List.isPrefixOf]
  by_cases h5 : c = '\x27'
  · subst h5; simp [replaceFrom, bestMatch, escapeChar, List.isPrefixOf]
  · have e1 : ¬ '&' = c := fun h => h1 h.symm
    have e2 : ¬ '<' = c := fun h => h2 h.symm
    have e3 : ¬ '>' = c := fun h => h3 h.symm
    have e4 : ¬ '"' = c := fun h => h4 h.symm
    have e5 : ¬ '\x27' = c := fun h => h5 h.symm
    simp [replaceFrom, bestMatch, escapeChar, List.isPrefixOf, h1, h2, h3, h4, h5,
      e1, e2, e3, e4, e5]

theorem HtmlEscape_nil : HtmlEscape [] = [] := rfl

theorem HtmlEscape_cons (c : Char) (cs : List Char) :
    HtmlEscape (c :: cs) = escapeChar c ++ HtmlEscape cs := by
  unfold HtmlEscape StrReplaceAll
  exact replaceFrom_html_cons c cs

theorem HtmlEscape_eq_flatMap (text : List Char) :
    HtmlEscape text = text.flatMap escapeChar := by
  induction text with
  | nil => rfl
  | cons c cs ih => rw [HtmlEscape_cons, ih, List.flatMap_cons]

theorem HtmlEscape_append (a b : List Char) :
    HtmlEscape (a ++ b) = HtmlEscape a ++ HtmlEscape b := by
  simp [HtmlEscape_eq_flatMap]

theorem escapeChar_of_not_target (c : Char)
    (h : c ≠ '&' ∧ c ≠ '<' ∧ c ≠ '>' ∧ c ≠ '"' ∧ c ≠ '\x27') : escapeChar c = [c] := by
  obtain ⟨h1, h2, h3, h4, h5⟩ := h
  simp [escapeChar, h1, h2, h3, h4, h5]

theorem HtmlEscape_of_no_target (text : List Char)
    (h : ∀ c ∈ text, c ≠ '&' ∧ c ≠ '<' ∧ c ≠ '>' ∧ c ≠ '"' ∧ c ≠ '\x27') :
    HtmlEscape text = text := by
  induction text with
  | nil => rfl
  | cons c cs ih =>
    rw [HtmlEscape_cons, escapeChar_of_not_target c (h c (List.mem_cons_self c cs)),
      ih (fun x hx => h x (List.mem_cons_of_mem c hx))]
    rfl

theorem mem_escapeChar (a x : Char) (h : x ∈ escapeChar a) :
    x ≠ '<' ∧ x ≠ '>' ∧ x ≠ '"' ∧ x ≠ '\x27' := by
  unfold escapeChar at h
  split_ifs at h with h1 h2 h3 h4 h5
  · simp at h; rcases h with h | h | h | h | h <;> subst h <;> decide
  · simp at h; rcases h with h | h | h | h <;> subst h <;> decide
  · simp at h; rcases h with h | h | h | h <;> subst h <;> decide
  · simp at h; rcases h with h | h | h | h | h | h <;> subst h <;> decide
  · simp at h; rcases h with h | h | h | h | h | h <;> subst h <;> decide
  · simp at h; subst h; exact ⟨h2, h3, h4, h5⟩

theorem amp_mem_escapeChar_of_target (c : Char)
    (h : c = '&' ∨ c = '<' ∨ c = '>' ∨ c = '"' ∨ c = '\x27') : '&' ∈ escapeChar c := by
  rcases h with h | h | h | h | h <;> subst h <;> decide

theorem amp_mem_HtmlEscape (text : List Char)
    (h : ∃ c ∈ text, c = '&' ∨ c = '<' ∨ c = '>' ∨ c = '"' ∨ c = '\x27') :
    '&' ∈ HtmlEscape text := by
  obtain ⟨c, hc, ht⟩ := h
  rw [HtmlEscape_eq_flatMap, List.mem_flatMap]
  exact ⟨c, hc, amp_mem_escapeChar_of_target c ht⟩

theorem length_escapeChar_pos (c : Char) : 1 ≤ (escapeChar c).length := by
  unfold escapeChar
  split_ifs <;> simp

theorem length_HtmlEscape_ge (text : List Char) : text.length ≤ (HtmlEscape text).length := by
  induction text with
  | nil => simp [HtmlEscape_nil]
  | cons c cs ih =>
    rw [HtmlEscape_cons, List.length_append, List.length_cons]
    have := length_escapeChar_pos c
    omega

theorem length_HtmlEscape_gt (text : List Char) (h : '&' ∈ text) :
    text.length < (HtmlEscape text).length := by
  induction text with
  | nil => simp at h
  | cons c cs ih =>
    rw [HtmlEscape_cons, List.length_append, List.length_cons]
    rcases List.mem_cons.mp h with h | h
    · subst h
      have := length_HtmlEscape_ge cs
      have h5 : (escapeChar '&').length = 5 := by decide
      omega
    · have := ih h
      have := length_escapeChar_pos c
      omega

theorem escape_escapeChar (c : Char) : HtmlEscape (escapeChar c) = doubleEscapeChar c := by
  by_cases h1 : c = '&'
  · subst h1; decide
  by_cases h2 : c = '<'
  · subst h2; decide
  by_cases h3 : c = '>'
  · subst h3; decide
  by_cases h4 : c = '"'
  · subst h4; decide
  by_cases h5 : c = '\x27'
  · subst h5; decide
  · have e : escapeChar c = [c] := escapeChar_of_not_target c ⟨h1, h2, h3, h4, h5⟩
    rw [e, HtmlEscape_cons, e, HtmlEscape_nil]
    simp [doubleEscapeChar, h1, h2, h3, h4, h5]

theorem escapeChar_cases (c : Char) :
    escapeChar c ∈ entities ∨ (escapeChar c = [c] ∧ c ≠ '&') := by
  by_cases h1 : c = '&'
  · subst h1; left; decide
  by_cases h2 : c = '<'
  · subst h2; left; decide
  by_cases h3 : c = '>'
  · subst h3; left; decide
  by_cases h4 : c = '"'
  · subst h4; left; decide
  by_cases h5 : c = '\x27'
  · subst h5; left; decide
  · exact Or.inr ⟨escapeChar_of_not_target c ⟨h1, h2, h3, h4, h5⟩, h1⟩

theorem suffix_entity_append (e rest suf : List Char) (he : e ∈ entities)
    (hs : suf <:+ e ++ rest) (hh : suf.head? = some '&') : e <+: suf ∨ suf <:+ rest := by
  have hent : entities = [['&', 'a', 'm', 'p', ';'], ['&', 'l', 't', ';'], ['&', 'g', 't', ';'],
      ['&', 'q', 'u', 'o', 't', ';'], ['&', 'a', 'p', 'o', 's', ';']] := rfl
  rw [hent] at he
  simp only [List.mem_cons, List.mem_singleton, List.not_mem_nil, or_false] at he
  rcases he with rfl | rfl | rfl | rfl | rfl <;>
    simp only [List.cons_append, List.nil_append, List.suffix_cons_iff] at hs
  · rcases hs with hs | hs | hs | hs | hs | hs
    · exact Or.inl ⟨rest, by rw [hs]; rfl⟩
    · subst hs; simp at hh
    · subst hs; simp at hh
    · subst hs; simp at hh
    · subst hs; simp at hh
    · exact Or.inr hs
  · rcases hs with hs | hs | hs | hs | hs
    · exact Or.inl ⟨rest, by rw [hs]; rfl⟩
    · subst hs; simp at hh
    · subst hs; simp at hh
    · subst hs; simp at hh
    · exact Or.inr hs
  · rcases hs with hs | hs | hs | hs | hs
    · exact Or.inl ⟨rest, by rw [hs]; rfl⟩
    · subst hs; simp at hh
    · subst hs; simp at hh
    · subst hs; simp at hh
    · exact Or.inr hs
  · rcases hs with hs | hs | hs | hs | hs | hs | hs
    · exact Or.inl ⟨rest, by rw [hs]; rfl⟩
    · subst hs; simp at hh
    · subst hs; simp at hh
    · subst hs; simp at hh
    · subst hs; simp at hh
    · subst hs; simp at hh
    · exact Or.inr hs
  · rcases hs with hs | hs | hs | hs | hs | hs | hs
    · exact Or.inl ⟨rest, by rw [hs]; rfl⟩
    · subst hs; simp at hh
    · subst hs; simp at hh
    · subst hs; simp at hh
    · subst hs; simp at hh
    · subst hs; simp at hh
    · exact Or.inr hs

theorem entity_at_suffix (text suf : List Char) (hs : suf <:+ HtmlEscape text)
    (hh : suf.head? = some '&') : ∃ e ∈ entities, e <+: suf := by
  induction text with
  | nil =>
    rw [HtmlEscape_nil, List.suffix_nil] at hs
    subst hs
    simp at hh
  | cons c cs ih =>
    rw [HtmlEscape_cons] at hs
    rcases escapeChar_cases c with he | ⟨he, hne⟩
    · rcases suffix_entity_append _ _ _ he hs hh with h | h
      · exact ⟨_, he, h⟩
      · exact ih h
    · rw [he, List.singleton_append, List.suffix_cons_iff] at hs
      rcases hs with hs | hs
      · subst hs
        simp at hh
        exact absurd hh hne
      · exact ih hs

theorem length_double_gt (text : List Char)
    (h : ∃ c ∈ text, c = '&' ∨ c = '<' ∨ c = '>' ∨ c = '"' ∨ c = '\x27') :
    (HtmlEscape text).length < (HtmlEscape (HtmlEscape text)).length :=
  length_HtmlEscape_gt _ (amp_mem_HtmlEscape text h)

theorem HtmlEscape_twice (text : List Char) :
    HtmlEscape (HtmlEscape text) = text.flatMap doubleEscapeChar := by
  induction text with
  | nil => rfl
  | cons c cs ih =>
    rw [HtmlEscape_cons, HtmlEscape_append, ih, escape_escapeChar, List.flatMap_cons]

/-! ## Lemmas on rendering -/

theorem renderAttributes_eq (attrs : List (List Char × List Char)) :
    renderAttributes attrs
      = (attrs.map (fun nv =>
          " ".toList ++ nv.1 ++ "=\"".toList ++ HtmlEscape nv.2 ++ "\"".toList)).flatten := by
  induction attrs with
  | nil => rfl
  | cons a rest ih =>
    obtain ⟨n, v⟩ := a
    simp [renderAttributes, ih]

theorem renderItems_eq (items : List Item) :
    renderItems items = (items.map Item.Render).flatten := by
  induction items with
  | nil => simp [renderItems]
  | cons a rest ih => simp [renderItems, ih]

theorem lookup_renderCells (cells : List ((Int × Int) × Container)) (key : Int × Int) :
    (renderCells cells).lookup key = (cells.lookup key).map Container.Render := by
  induction cells with
  | nil => simp [renderCells]
  | cons a rest ih =>
    obtain ⟨k, v⟩ := a
    simp only [renderCells, List.lookup_cons]
    cases h : (key == k) <;> simp [ih]

theorem hasLtS_append_of_no_lt (x y : List Char) (h : ∀ c ∈ x, c ≠ '<') :
    hasLtS (x ++ y) = hasLtS y := by
  induction x with
  | nil => rfl
  | cons c cs ih =>
    have hc : c ≠ '<' := h c (List.mem_cons_self c cs)
    simp [hasLtS, hc, ih (fun a ha => h a (List.mem_cons_of_mem c ha))]

theorem hasLtS_append_right (p suf : List Char) (h : hasLtS p = true) :
    hasLtS (p ++ suf) = true := by
  induction p with
  | nil => simp [hasLtS] at h
  | cons c cs ih =>
    simp only [hasLtS, Bool.or_eq_true, Bool.and_eq_true] at h
    simp only [List.cons_append, hasLtS, Bool.or_eq_true, Bool.and_eq_true]
    rcases h with ⟨h1, h2⟩ | h
    · left
      refine ⟨h1, ?_⟩
      cases cs with
      | nil => simp at h2
      | cons d ds => simpa using h2
    · exact Or.inr (ih h)

theorem hasLtS_of_infix (p l : List Char) (hp : hasLtS p = true) (h : p <:+: l) :
    hasLtS l = true := by
  obtain ⟨pre, suf, rfl⟩ := h
  induction pre with
  | nil => simpa using hasLtS_append_right p suf hp
  | cons c cs ih =>
    simp only [List.cons_append, List.append_assoc, hasLtS, Bool.or_eq_true]
    right
    simpa using ih

theorem HtmlEscape_no_lt (text : List Char) : ∀ c ∈ HtmlEscape text, c ≠ '<' := by
  intro c hc
  rw [HtmlEscape_eq_flatMap, List.mem_flatMap] at hc
  obtain ⟨a, _, hx⟩ := hc
  exact (mem_escapeChar a c hx).1

theorem link_no_script (text url : List Char) :
    ¬ ("<script>".toList <:+:
        "<a href=\"".toList ++ HtmlEscape url ++ "\">".toList ++ HtmlEscape text
          ++ "</a>".toList) := by
  intro h
  have hs := hasLtS_of_infix _ _ (by decide) h
  have e : "<a href=\"".toList ++ HtmlEscape url ++ "\">".toList ++ HtmlEscape text
        ++ "</a>".toList
      = '<' :: 'a' :: ' ' :: 'h' :: 'r' :: 'e' :: 'f' :: '=' :: '"' ::
          (HtmlEscape url ++ ('"' :: '>' :: (HtmlEscape text ++ "</a>".toList))) := by
    simp
  rw [e] at hs
  simp only [hasLtS] at hs
  rw [hasLtS_append_of_no_lt _ _ (HtmlEscape_no_lt url)] at hs
  simp only [hasLtS] at hs
  rw [hasLtS_append_of_no_lt _ _ (HtmlEscape_no_lt text)] at hs
  simp [hasLtS] at hs

/-! ## Theorems on `HtmlEscape` -/

/-- C1: `HtmlEscape text` is the concatenation, in order, of the per-character images of
`text` (the five markup characters map to their entities, every other character to
itself); the pass is single, so the ampersand of an emitted entity is not escaped again
(`<` gives `&lt;`), and the empty text gives the empty text. -/
theorem C1_HtmlEscape_per_character (text : List Char) :
    HtmlEscape text = (text.map escapeChar).flatten
      ∧ HtmlEscape "<".toList = "&lt;".toList
      ∧ HtmlEscape [] = [] := by
  refine ⟨?_, by decide, rfl⟩
  rw [HtmlEscape_eq_flatMap, List.flatMap_def]

/-- C2: the escaped text contains none of `<`, `>`, `"`, `'`, and wherever an `&` occurs
in it (every suffix of the output that starts with `&`), one of the five entities starts
there. -/
theorem C2_HtmlEscape_safe (text : List Char) :
    (∀ c ∈ HtmlEscape text, c ≠ '<' ∧ c ≠ '>' ∧ c ≠ '"' ∧ c ≠ '\x27')
      ∧ (∀ suf : List Char, suf <:+ HtmlEscape text → suf.head? = some '&' →
          ∃ e ∈ ["&amp;".toList, "&lt;".toList, "&gt;".toList, "&quot;".toList, "&apos;".toList],
            e <+: suf) := by
  constructor
  · intro c hc
    rw [HtmlEscape_eq_flatMap, List.mem_flatMap] at hc
    obtain ⟨a, _, hx⟩ := hc
    exact mem_escapeChar a c hx
  · intro suf hs hh
    exact entity_at_suffix text suf hs hh

/-- Witness for C2 at the text `a<b&"c"`. -/
theorem C2_HtmlEscape_safe_witness :
    (∀ c ∈ HtmlEscape "a<b&\"c\"".toList, c ≠ '<' ∧ c ≠ '>' ∧ c ≠ '"' ∧ c ≠ '\x27')
      ∧ (∀ suf : List Char, suf <:+ HtmlEscape "a<b&\"c\"".toList → suf.head? = some '&' →
          ∃ e ∈ ["&amp;".toList, "&lt;".toList, "&gt;".toList, "&quot;".toList, "&apos;".toList],
            e <+: suf) :=
  C2_HtmlEscape_safe "a<b&\"c\"".toList

/-- C3: a text that contains none of the five markup characters is returned unchanged. -/
theorem C3_HtmlEscape_fixed_point (text : List Char)
    (h : ∀ c ∈ text, c ≠ '&' ∧ c ≠ '<' ∧ c ≠ '>' ∧ c ≠ '"' ∧ c ≠ '\x27') :
    HtmlEscape text = text :=
  HtmlEscape_of_no_target text h

/-- Witness for C3 at the text `plain text 123`. -/
theorem C3_HtmlEscape_fixed_point_witness :
    (∀ c ∈ "plain text 123".toList, c ≠ '&' ∧ c ≠ '<' ∧ c ≠ '>' ∧ c ≠ '"' ∧ c ≠ '\x27')
      ∧ HtmlEscape "plain text 123".toList = "plain text 123".toList :=
  ⟨by decide, C3_HtmlEscape_fixed_point "plain text 123".toList (by decide)⟩

/-- C4: escaping twice double-escapes: `HtmlEscape (HtmlEscape text)` is `text` with `&`
replaced by `&amp;amp;`, `<` by `&amp;lt;`, `>` by `&amp;gt;`, `"` by `&amp;quot;` and `'`
by `&amp;apos;`; it differs from `HtmlEscape text` for every text that contains one of the
five characters, so `HtmlEscape` is not idempotent. -/
theorem C4_HtmlEscape_double_escapes (text : List Char) :
    HtmlEscape (HtmlEscape text) = (text.map doubleEscapeChar).flatten
      ∧ ((∃ c ∈ text, c = '&' ∨ c = '<' ∨ c = '>' ∨ c = '"' ∨ c = '\x27') →
          HtmlEscape (HtmlEscape text) ≠ HtmlEscape text)
      ∧ ¬ (∀ t : List Char, HtmlEscape (HtmlEscape t) = HtmlEscape t) := by
  refine ⟨?_, ?_, ?_⟩
  · rw [HtmlEscape_twice, List.flatMap_def]
  · intro h heq
    have := length_double_gt text h
    rw [heq] at this
    exact lt_irrefl _ this
  · intro h
    exact absurd (h "&".toList) (by decide)

/-- Witness for C4 at the text `a&b`, which contains a markup character. -/
theorem C4_HtmlEscape_double_escapes_witness :
    (∃ c ∈ "a&b".toList, c = '&' ∨ c = '<' ∨ c = '>' ∨ c = '"' ∨ c = '\x27')
      ∧ HtmlEscape (HtmlEscape "a&b".toList) = "a&amp;amp;b".toList
      ∧ HtmlEscape (HtmlEscape "a&b".toList) ≠ HtmlEscape "a&b".toList :=
  ⟨⟨'&', by decide, Or.inl rfl⟩, by decide,
    (C4_HtmlEscape_double_escapes "a&b".toList).2.1 ⟨'&', by decide, Or.inl rfl⟩⟩

/-! ## Theorems on `Container` -/

/-- C5: a tagged container with tag `t`, attributes `(n1,v1)...(nk,vk)` and no children
renders as `<t`, then ` ni="HtmlEscape(vi)"` for each attribute in order, then `/>`; and
the free function `Div` with class `x` and a populate routine that adds nothing renders
exactly `<div class="x"/>`. -/
theorem C5_tagged_without_children_self_closes (t : List Char)
    (attrs : List (List Char × List Char)) :
    (Container.mk (some t) attrs []).Render
        = "<".toList ++ t
          ++ (attrs.map (fun nv =>
                " ".toList ++ nv.1 ++ "=\"".toList ++ HtmlEscape nv.2 ++ "\"".toList)).flatten
          ++ "/>".toList
      ∧ (Div "x".toList (fun div => div)).Render = "<div class=\"x\"/>".toList := by
  refine ⟨?_, by decide⟩
  rw [Container.Render, renderAttributes_eq]

/-- C6: an untagged container renders as the concatenation of its children's renderings
in child order, whatever its attribute list holds and also when it has no children; for
the children `[A, B]` this is `Render(A) ++ Render(B)`. -/
theorem C6_untagged_renders_children_only (attrs : List (List Char × List Char))
    (items : List Item) (A B : Item) :
    (Container.mk none attrs items).Render = (items.map Item.Render).flatten
      ∧ (Container.mk none attrs []).Render = []
      ∧ (Container.mk none attrs [A, B]).Render = A.Render ++ B.Render := by
  refine ⟨?_, ?_, ?_⟩
  · rw [Container.Render, renderItems_eq]
  · rw [Container.Render, renderItems]
  · rw [Container.Render, renderItems_eq]
    simp

/-- C7: a tagged container with at least one child renders as the open tag `<t` +
attributes + `>`, the children's renderings in order, and `</t>`; the open/close form is
used also when the children render to nothing: a single empty untagged child gives
`<t></t>`. -/
theorem C7_tagged_with_children_open_close (t : List Char)
    (attrs : List (List Char × List Char)) (items : List Item) (h : items ≠ []) :
    (Container.mk (some t) attrs items).Render
        = "<".toList ++ t
          ++ (attrs.map (fun nv =>
                " ".toList ++ nv.1 ++ "=\"".toList ++ HtmlEscape nv.2 ++ "\"".toList)).flatten
          ++ ">".toList
          ++ (items.map Item.Render).flatten
          ++ "</".toList ++ t ++ ">".toList
      ∧ (Container.mk (some t) [] [Item.container Container.untagged]).Render
          = "<".toList ++ t ++ "></".toList ++ t ++ ">".toList := by
  constructor
  · cases items with
    | nil => exact absurd rfl h
    | cons i rest => rw [Container.Render, renderAttributes_eq, renderItems_eq]
  · simp [Container.untagged, Container.Render, renderItems, renderAttributes, Item.Render]

/-- Witness for C7: a `p` container whose single child is an empty untagged container,
which renders to the empty string, still renders as `<p></p>` and not as `<p/>`. -/
theorem C7_tagged_with_children_open_close_witness :
    (Item.container Container.untagged).Render = []
      ∧ (Container.mk (some "p".toList) [] [Item.container Container.untagged]).Render
          = "<p></p>".toList
      ∧ (Container.mk (some "p".toList) [] [Item.container Container.untagged]).Render
          ≠ "<p/>".toList :=
  ⟨by decide,
   (C7_tagged_with_children_open_close "p".toList [] [Item.container Container.untagged]
      (by simp)).1.trans (by decide),
   by decide⟩

/-- C8: `Link(text, url)` leaves tag and attributes of the container alone and appends
exactly one child; that child renders as `<a href="` + HtmlEscape(url) + `">` +
HtmlEscape(text) + `</a>`, which never contains `<script>`; with the text `<script>` the
anchor body is `&lt;script&gt;`. -/
theorem C8_Link_appends_escaped_anchor (c : Container) (text url : List Char) :
    ∃ child : Item,
      (c.Link text url).items_ = c.items_ ++ [child]
        ∧ (c.Link text url).tag_ = c.tag_
        ∧ (c.Link text url).attributes_ = c.attributes_
        ∧ child.Render
            = "<a href=\"".toList ++ HtmlEscape url ++ "\">".toList ++ HtmlEscape text
                ++ "</a>".toList
        ∧ ¬ ("<script>".toList <:+: child.Render)
        ∧ (text = "<script>".toList →
            child.Render
              = "<a href=\"".toList ++ HtmlEscape url ++ "\">&lt;script&gt;</a>".toList) := by
  have hr : (Item.container
        (((Container.new "a".toList).Attribute "href".toList url).Text text)).Render
      = "<a href=\"".toList ++ HtmlEscape url ++ "\">".toList ++ HtmlEscape text
          ++ "</a>".toList := by
    simp [Container.new, Container.Attribute, Container.setAttribute, Container.Text,
      Container.NewItem, Item.Render, Text.Render, Container.Render, renderAttributes,
      renderItems]
  refine ⟨Item.container (((Container.new "a".toList).Attribute "href".toList url).Text text),
    ?_, ?_, ?_, hr, ?_, ?_⟩
  · cases c; rfl
  · cases c; rfl
  · cases c; rfl
  · rw [hr]; exact link_no_script text url
  · intro ht
    rw [hr, ht]
    have : HtmlEscape "<script>".toList = "&lt;script&gt;".toList := by decide
    rw [this]
    simp

/-- Witness for C8: a link with text `<script>` and url `/x?a=1&b=2` added to an empty
untagged container. -/
theorem C8_Link_appends_escaped_anchor_witness :
    (Container.untagged.Link "<script>".toList "/x?a=1&b=2".toList).Render
        = "<a href=\"/x?a=1&amp;b=2\">&lt;script&gt;</a>".toList
      ∧ ∃ child : Item,
          (Container.untagged.Link "<script>".toList "/x?a=1&b=2".toList).items_ = [child]
            ∧ ¬ ("<script>".toList <:+: child.Render) := by
  refine ⟨by decide, ?_⟩
  obtain ⟨child, h1, _, _, _, h5, _⟩ :=
    C8_Link_appends_escaped_anchor Container.untagged "<script>".toList "/x?a=1&b=2".toList
  exact ⟨child, h1, h5⟩

/-- What `AddStyle(css)` appends and how it renders: one `style` child holding the css
in a text leaf, whose rendering is `<style>` + HtmlEscape(css) + `</style>`; this is the
css verbatim only when it holds none of the five markup characters. -/
theorem AddStyle_renders_escaped (c : Container) (css : List Char) :
    (c.AddStyle css).items_
        = c.items_ ++ [Item.container (Container.mk (some "style".toList) [] [Item.text css])]
      ∧ (c.AddStyle css).tag_ = c.tag_
      ∧ (c.AddStyle css).attributes_ = c.attributes_
      ∧ (Item.container (Container.mk (some "style".toList) [] [Item.text css])).Render
          = "<style>".toList ++ HtmlEscape css ++ "</style>".toList
      ∧ ((∀ x ∈ css, x ≠ '&' ∧ x ≠ '<' ∧ x ≠ '>' ∧ x ≠ '"' ∧ x ≠ '\x27') →
          (Item.container (Container.mk (some "style".toList) [] [Item.text css])).Render
            = "<style>".toList ++ css ++ "</style>".toList) := by
  have hr : (Item.container (Container.mk (some "style".toList) [] [Item.text css])).Render
      = "<style>".toList ++ HtmlEscape css ++ "</style>".toList := by
    simp [Item.Render, Text.Render, Container.Render, renderAttributes, renderItems]
  refine ⟨?_, ?_, ?_, hr, ?_⟩
  · cases c; rfl
  · cases c; rfl
  · cases c; rfl
  · intro h
    rw [hr, HtmlEscape_of_no_target css h]

/-- C9: the claim is that `AddStyle(css)` renders `<style>` + css + `</style>` with the css
verbatim. The code at the failing input `AddStyle("a>b")` on an empty untagged container:
the css is stored by the same `Text` call that `Link` uses for its text, as a text leaf,
and the output is `<style>a&gt;b</style>`, not `<style>a>b</style>`; the link text `a>b`
comes out escaped the same way. The css `.a{color:red}` of the claim's example has no
markup character and is rendered unchanged. -/
theorem C9_AddStyle_at_failing_input :
    (Container.untagged.AddStyle "a>b".toList).items_
        = [Item.container (Container.mk (some "style".toList) [] [Item.text "a>b".toList])]
      ∧ (Container.untagged.Link "a>b".toList "u".toList).items_
        = [Item.container (Container.mk (some "a".toList) [("href".toList, "u".toList)]
            [Item.text "a>b".toList])]
      ∧ (Container.untagged.AddStyle "a>b".toList).Render = "<style>a&gt;b</style>".toList
      ∧ (Container.untagged.AddStyle "a>b".toList).Render ≠ "<style>a>b</style>".toList
      ∧ (Container.untagged.Link "a>b".toList "u".toList).Render
        = "<a href=\"u\">a&gt;b</a>".toList
      ∧ (Container.untagged.AddStyle ".a\x7bcolor:red\x7d".toList).Render
        = "<style>.a\x7bcolor:red\x7d</style>".toList := by
  refine ⟨rfl, rfl, by decide, by decide, by decide, by decide⟩

/-! ## Theorems on `Table` -/

set_option maxRecDepth 20000 in
/-- C10 as stated fails: in the table with one header row and one header column whose
cell (0,0) got the text `H` and cell (1,1) the text `v`, the rows are not
`<th>H</th><th/>` and `<th/><td>v</td>`; neither `<th>H</th>` nor `<td>v</td>` occurs in
the output, because a cell is a `div` container. -/
theorem C10_table_rows_counterexample :
    (((Table.new "t".toList 1 1).CellDo 0 0 (fun cell => cell.Text "H".toList)).CellDo 1 1
        (fun cell => cell.Text "v".toList)).Render
      ≠ ("<table class=\"t\"><thead><tr><th>H</th><th/></tr></thead>".toList
          ++ "<tbody><tr><th/><td>v</td></tr></tbody></table>".toList)
    ∧ ¬ ("<th>H</th>".toList <:+:
          (((Table.new "t".toList 1 1).CellDo 0 0 (fun cell => cell.Text "H".toList)).CellDo 1 1
            (fun cell => cell.Text "v".toList)).Render)
    ∧ ¬ ("<td>v</td>".toList <:+:
          (((Table.new "t".toList 1 1).CellDo 0 0 (fun cell => cell.Text "H".toList)).CellDo 1 1
            (fun cell => cell.Text "v".toList)).Render) := by
  have hr : (((Table.new "t".toList 1 1).CellDo 0 0 (fun cell => cell.Text "H".toList)).CellDo
        1 1 (fun cell => cell.Text "v".toList)).Render
      = ("<table class=\"t\"><thead><tr><th><div>H</div></th><th/></tr></thead>".toList
          ++ "<tbody><tr><th/><td><div>v</div></td></tr></tbody></table>".toList) := by
    decide
  rw [hr]
  refine ⟨by decide, by decide, by decide⟩

/-- C10, amended: for a table with one header row and one header column in which
`Cell(0,0)` was given the text `H`, `Cell(1,1)` the text `v` (in either order) and no other
cell was touched, `Render` yields a `<thead>` holding one `<tr>` whose content is exactly
`<th><div>H</div></th><th/>` and a `<tbody>` holding one `<tr>` whose content is exactly
`<th/><td><div>v</div></td>`. -/
theorem C10_table_rows_wrap_cell_div (clazz : List Char) :
    (((Table.new clazz 1 1).CellDo 0 0 (fun cell => cell.Text "H".toList)).CellDo 1 1
        (fun cell => cell.Text "v".toList)).Render
      = "<table class=\"".toList ++ HtmlEscape clazz ++ "\">".toList
          ++ "<thead><tr><th><div>H</div></th><th/></tr></thead>".toList
          ++ "<tbody><tr><th/><td><div>v</div></td></tr></tbody>".toList
          ++ "</table>".toList
    ∧ (((Table.new clazz 1 1).CellDo 1 1 (fun cell => cell.Text "v".toList)).CellDo 0 0
        (fun cell => cell.Text "H".toList)).Render
      = "<table class=\"".toList ++ HtmlEscape clazz ++ "\">".toList
          ++ "<thead><tr><th><div>H</div></th><th/></tr></thead>".toList
          ++ "<tbody><tr><th/><td><div>v</div></td></tr></tbody>".toList
          ++ "</table>".toList := by
  have h1 : (((Table.new clazz 1 1).CellDo 0 0 (fun cell => cell.Text "H".toList)).CellDo 1 1
        (fun cell => cell.Text "v".toList)).Render
      = "<table class=\"".toList ++ HtmlEscape clazz ++ "\">".toList ++ "<thead>".toList
          ++ "<tr><th><div>H</div></th><th/></tr>".toList ++ "</thead>".toList
          ++ "<tbody>".toList ++ "<tr><th/><td><div>v</div></td></tr>".toList
          ++ "</tbody>".toList ++ "</table>".toList := rfl
  have h2 : (((Table.new clazz 1 1).CellDo 1 1 (fun cell => cell.Text "v".toList)).CellDo 0 0
        (fun cell => cell.Text "H".toList)).Render
      = "<table class=\"".toList ++ HtmlEscape clazz ++ "\">".toList ++ "<thead>".toList
          ++ "<tr><th><div>H</div></th><th/></tr>".toList ++ "</thead>".toList
          ++ "<tbody>".toList ++ "<tr><th/><td><div>v</div></td></tr>".toList
          ++ "</tbody>".toList ++ "</table>".toList := rfl
  rw [h1, h2]
  constructor <;> simp

/-! ## Lemmas on `int` addition -/

theorem addInt_exact (c : Int) (h0 : -2147483649 ≤ c) (h1 : c < 2147483647) :
    addInt c 1 = c + 1 := by
  unfold addInt wrapInt
  omega

theorem addInt_INT_MAX : addInt INT_MAX 1 = -2147483648 := by decide

/-! ## Lemmas on `Table::Cell` -/

theorem lookup_storeCell_self (key : Int × Int) (v : Container)
    (cells : List ((Int × Int) × Container)) :
    (Table.storeCell key v cells).lookup key = (cells.lookup key).map (fun _ => v) := by
  induction cells with
  | nil => simp [Table.storeCell]
  | cons a rest ih =>
    obtain ⟨k, w⟩ := a
    by_cases hk : k = key
    · subst hk
      simp [Table.storeCell]
    · have hb : (key == k) = false := by
        simpa using fun h : key = k => hk h.symm
      simp [Table.storeCell, hk, List.lookup_cons, hb, ih]

theorem lookup_append_new (key : Int × Int) (v : Container)
    (cells : List ((Int × Int) × Container)) (h : cells.lookup key = none) :
    (cells ++ [(key, v)]).lookup key = some v := by
  induction cells with
  | nil => simp
  | cons a rest ih =>
    obtain ⟨k, w⟩ := a
    rw [List.lookup_cons] at h
    cases hb : (key == k) with
    | true => rw [hb] at h; simp at h
    | false =>
      rw [hb] at h
      simp [List.lookup_cons, hb, ih h]

theorem lookup_append_other (key k : Int × Int) (v : Container)
    (cells : List ((Int × Int) × Container)) (h : k ≠ key) :
    (cells ++ [(key, v)]).lookup k = cells.lookup k := by
  induction cells with
  | nil =>
    have hb : (k == key) = false := by simpa using h
    simp [List.lookup_cons, hb]
  | cons a rest ih =>
    obtain ⟨k', w⟩ := a
    cases hb : (k == k') <;> simp [List.lookup_cons, hb, ih]

theorem Cell_of_absent (clazz : List Char) (cells : List ((Int × Int) × Container))
    (nc nr nhr nhc c r : Int) (h : cells.lookup (c, r) = none) :
    (Table.mk clazz cells nc nr nhr nhc).Cell c r
      = (Table.mk clazz (cells ++ [((c, r), Container.new "div".toList)])
          (max nc (addInt c 1)) (max nr (addInt r 1)) nhr nhc, Container.new "div".toList) := by
  simp [Table.Cell, h]

theorem Cell_of_present (clazz : List Char) (cells : List ((Int × Int) × Container))
    (nc nr nhr nhc c r : Int) (cell : Container) (h : cells.lookup (c, r) = some cell) :
    (Table.mk clazz cells nc nr nhr nhc).Cell c r
      = (Table.mk clazz cells (max nc (addInt c 1)) (max nr (addInt r 1)) nhr nhc, cell) := by
  simp [Table.Cell, h]

theorem Cell_bounds (t : Table) (c r : Int) :
    (t.Cell c r).1.num_columns_ = max t.num_columns_ (addInt c 1)
      ∧ (t.Cell c r).1.num_rows_ = max t.num_rows_ (addInt r 1)
      ∧ (t.Cell c r).1.clazz_ = t.clazz_
      ∧ (t.Cell c r).1.num_header_rows_ = t.num_header_rows_
      ∧ (t.Cell c r).1.num_header_columns_ = t.num_header_columns_ := by
  obtain ⟨clazz, cells, nc, nr, nhr, nhc⟩ := t
  cases h : cells.lookup (c, r) with
  | none =>
    rw [Cell_of_absent _ _ _ _ _ _ _ _ h]
    simp [Table.num_columns_, Table.num_rows_, Table.clazz_, Table.num_header_rows_,
      Table.num_header_columns_]
  | some cell =>
    rw [Cell_of_present _ _ _ _ _ _ _ _ cell h]
    simp [Table.num_columns_, Table.num_rows_, Table.clazz_, Table.num_header_rows_,
      Table.num_header_columns_]

theorem Cell_lookup_self (t : Table) (c r : Int) :
    (t.Cell c r).1.cells_.lookup (c, r) = some (t.Cell c r).2 := by
  obtain ⟨clazz, cells, nc, nr, nhr, nhc⟩ := t
  cases h : cells.lookup (c, r) with
  | none =>
    rw [Cell_of_absent _ _ _ _ _ _ _ _ h]
    exact lookup_append_new _ _ _ h
  | some cell =>
    rw [Cell_of_present _ _ _ _ _ _ _ _ cell h]
    exact h

theorem Cell_of_stored (u : Table) (c r : Int) (cell : Container)
    (h : u.cells_.lookup (c, r) = some cell) (hc : addInt c 1 ≤ u.num_columns_)
    (hr : addInt r 1 ≤ u.num_rows_) : u.Cell c r = (u, cell) := by
  obtain ⟨clazz, cells, nc, nr, nhr, nhc⟩ := u
  simp only [Table.cells_] at h
  simp only [Table.num_columns_] at hc
  simp only [Table.num_rows_] at hr
  rw [Cell_of_present _ _ _ _ _ _ _ _ _ h, max_eq_left hc, max_eq_left hr]

theorem Cell_again (t : Table) (c r : Int) :
    (t.Cell c r).1.Cell c r = ((t.Cell c r).1, (t.Cell c r).2) := by
  have hb := Cell_bounds t c r
  refine Cell_of_stored _ c r _ (Cell_lookup_self t c r) ?_ ?_
  · rw [hb.1]; exact le_max_right _ _
  · rw [hb.2.1]; exact le_max_right _ _

theorem CellDo_eq (t : Table) (c r : Int) (f : Container → Container) :
    t.CellDo c r f
      = Table.mk (t.Cell c r).1.clazz_
          (Table.storeCell (c, r) (f (t.Cell c r).2) (t.Cell c r).1.cells_)
          (t.Cell c r).1.num_columns_ (t.Cell c r).1.num_rows_
          (t.Cell c r).1.num_header_rows_ (t.Cell c r).1.num_header_columns_ := by
  unfold Table.CellDo
  obtain ⟨⟨clazz, cells, nc, nr, nhr, nhc⟩, cell⟩ := t.Cell c r
  rfl

theorem CellDo_bounds (t : Table) (c r : Int) (f : Container → Container) :
    (t.CellDo c r f).num_columns_ = max t.num_columns_ (addInt c 1)
      ∧ (t.CellDo c r f).num_rows_ = max t.num_rows_ (addInt r 1) := by
  rw [CellDo_eq]
  exact ⟨(Cell_bounds t c r).1, (Cell_bounds t c r).2.1⟩

theorem CellDo_then_Cell (t : Table) (c r : Int) (f : Container → Container) :
    (t.CellDo c r f).Cell c r = (t.CellDo c r f, f (t.Cell c r).2) := by
  have hb := CellDo_bounds t c r f
  refine Cell_of_stored _ c r _ ?_ ?_ ?_
  · rw [CellDo_eq]
    show (Table.storeCell (c, r) (f (t.Cell c r).2) (t.Cell c r).1.cells_).lookup (c, r) = _
    rw [lookup_storeCell_self, Cell_lookup_self t c r]
    rfl
  · rw [hb.1]; exact le_max_right _ _
  · rw [hb.2]; exact le_max_right _ _

theorem Cell_cells_other (t : Table) (c r : Int) (k : Int × Int) (h : k ≠ (c, r)) :
    (t.Cell c r).1.cells_.lookup k = t.cells_.lookup k := by
  obtain ⟨clazz, cells, nc, nr, nhr, nhc⟩ := t
  cases hl : cells.lookup (c, r) with
  | none =>
    rw [Cell_of_absent _ _ _ _ _ _ _ _ hl]
    exact lookup_append_other _ _ _ _ h
  | some cell =>
    rw [Cell_of_present _ _ _ _ _ _ _ _ cell hl]
    rfl

theorem CellCalls_cons (t : Table) (call : (Int × Int) × (Container → Container))
    (rest : List ((Int × Int) × (Container → Container))) :
    t.CellCalls (call :: rest) = (t.CellDo call.1.1 call.1.2 call.2).CellCalls rest := rfl

theorem CellDo_bounds_exact (t : Table) (c r : Int) (f : Container → Container)
    (h : 0 ≤ c ∧ c < 2147483647 ∧ 0 ≤ r ∧ r < 2147483647) :
    (t.CellDo c r f).num_columns_ = max t.num_columns_ (c + 1)
      ∧ (t.CellDo c r f).num_rows_ = max t.num_rows_ (r + 1) := by
  have hb := CellDo_bounds t c r f
  rw [addInt_exact c (by omega) h.2.1, addInt_exact r (by omega) h.2.2.2] at hb
  exact hb

theorem CellCalls_columns_ge (calls : List ((Int × Int) × (Container → Container)))
    (h : ∀ call ∈ calls,
      0 ≤ call.1.1 ∧ call.1.1 < 2147483647 ∧ 0 ≤ call.1.2 ∧ call.1.2 < 2147483647) :
    ∀ u : Table, u.num_columns_ ≤ (u.CellCalls calls).num_columns_
      ∧ ∀ call ∈ calls, call.1.1 + 1 ≤ (u.CellCalls calls).num_columns_ := by
  induction calls with
  | nil => intro u; exact ⟨le_refl _, fun _ h => absurd h (List.not_mem_nil _)⟩
  | cons call rest ih =>
    intro u
    rw [CellCalls_cons]
    have hb := (CellDo_bounds_exact u call.1.1 call.1.2 call.2
      (h call (List.mem_cons_self _ _))).1
    obtain ⟨h1, h2⟩ := ih (fun x hx => h x (List.mem_cons_of_mem _ hx))
      (u.CellDo call.1.1 call.1.2 call.2)
    rw [hb] at h1
    refine ⟨le_trans (le_max_left _ _) h1, ?_⟩
    intro x hx
    rcases List.mem_cons.mp hx with rfl | hx
    · exact le_trans (le_max_right _ _) h1
    · exact h2 x hx

theorem CellCalls_rows_ge (calls : List ((Int × Int) × (Container → Container)))
    (h : ∀ call ∈ calls,
      0 ≤ call.1.1 ∧ call.1.1 < 2147483647 ∧ 0 ≤ call.1.2 ∧ call.1.2 < 2147483647) :
    ∀ u : Table, u.num_rows_ ≤ (u.CellCalls calls).num_rows_
      ∧ ∀ call ∈ calls, call.1.2 + 1 ≤ (u.CellCalls calls).num_rows_ := by
  induction calls with
  | nil => intro u; exact ⟨le_refl _, fun _ h => absurd h (List.not_mem_nil _)⟩
  | cons call rest ih =>
    intro u
    rw [CellCalls_cons]
    have hb := (CellDo_bounds_exact u call.1.1 call.1.2 call.2
      (h call (List.mem_cons_self _ _))).2
    obtain ⟨h1, h2⟩ := ih (fun x hx => h x (List.mem_cons_of_mem _ hx))
      (u.CellDo call.1.1 call.1.2 call.2)
    rw [hb] at h1
    refine ⟨le_trans (le_max_left _ _) h1, ?_⟩
    intro x hx
    rcases List.mem_cons.mp hx with rfl | hx
    · exact le_trans (le_max_right _ _) h1
    · exact h2 x hx

theorem CellCalls_columns_attained (calls : List ((Int × Int) × (Container → Container)))
    (h : ∀ call ∈ calls,
      0 ≤ call.1.1 ∧ call.1.1 < 2147483647 ∧ 0 ≤ call.1.2 ∧ call.1.2 < 2147483647) :
    ∀ u : Table, (u.CellCalls calls).num_columns_ = u.num_columns_
      ∨ ∃ call ∈ calls, (u.CellCalls calls).num_columns_ = 1 + call.1.1 := by
  induction calls with
  | nil => intro u; exact Or.inl rfl
  | cons call rest ih =>
    intro u
    rw [CellCalls_cons]
    have hb := (CellDo_bounds_exact u call.1.1 call.1.2 call.2
      (h call (List.mem_cons_self _ _))).1
    rcases ih (fun x hx => h x (List.mem_cons_of_mem _ hx))
        (u.CellDo call.1.1 call.1.2 call.2) with h' | ⟨x, hx, h'⟩
    · rw [h', hb]
      rcases max_choice u.num_columns_ (call.1.1 + 1) with hm | hm
      · exact Or.inl hm
      · exact Or.inr ⟨call, List.mem_cons_self _ _, by rw [hm]; ring⟩
    · exact Or.inr ⟨x, List.mem_cons_of_mem _ hx, h'⟩

theorem CellCalls_rows_attained (calls : List ((Int × Int) × (Container → Container)))
    (h : ∀ call ∈ calls,
      0 ≤ call.1.1 ∧ call.1.1 < 2147483647 ∧ 0 ≤ call.1.2 ∧ call.1.2 < 2147483647) :
    ∀ u : Table, (u.CellCalls calls).num_rows_ = u.num_rows_
      ∨ ∃ call ∈ calls, (u.CellCalls calls).num_rows_ = 1 + call.1.2 := by
  induction calls with
  | nil => intro u; exact Or.inl rfl
  | cons call rest ih =>
    intro u
    rw [CellCalls_cons]
    have hb := (CellDo_bounds_exact u call.1.1 call.1.2 call.2
      (h call (List.mem_cons_self _ _))).2
    rcases ih (fun x hx => h x (List.mem_cons_of_mem _ hx))
        (u.CellDo call.1.1 call.1.2 call.2) with h' | ⟨x, hx, h'⟩
    · rw [h', hb]
      rcases max_choice u.num_rows_ (call.1.2 + 1) with hm | hm
      · exact Or.inl hm
      · exact Or.inr ⟨call, List.mem_cons_self _ _, by rw [hm]; ring⟩
    · exact Or.inr ⟨x, List.mem_cons_of_mem _ hx, h'⟩

/-! ## Theorems on `Table::Cell` -/

/-- C11 as stated fails: `Cell(2147483647, 0)` on a fresh table computes `column + 1` at
the largest `int`, where the addition overflows, and leaves `numColumns` at 0, which is
not `>= c+1`; likewise `Cell(0, 2147483647)` leaves `numRows` at 0. -/
theorem C11_Cell_largest_int_counterexample :
    ((Table.new "t".toList 0 0).Cell 2147483647 0).1.num_columns_ = 0
      ∧ ¬ ((2147483647 : Int) + 1 ≤ ((Table.new "t".toList 0 0).Cell 2147483647 0).1.num_columns_)
      ∧ ((Table.new "t".toList 0 0).Cell 0 2147483647).1.num_rows_ = 0
      ∧ ¬ ((2147483647 : Int) + 1 ≤ ((Table.new "t".toList 0 0).Cell 0 2147483647).1.num_rows_) := by
  refine ⟨by decide, by decide, by decide, by decide⟩

/-- C11, amended: `Cell` is an idempotent accessor. For a non-negative column below the
largest `int`, after `Cell(c, r)` the table has `numColumns >= c+1`, and for such a row
`numRows >= r+1` (`Cell(5,3)` on a fresh table gives at least 6 and 4); for every
`(c, r)` a second `Cell(c, r)` returns the cell of the first call, with the content `f`
that was added through the returned reference in between, and leaves the table state as
it was. -/
theorem C11_Cell_idempotent_accessor (t : Table) (c r : Int) (f : Container → Container)
    (clazz : List Char) (nhr nhc : Int) :
    (0 ≤ c → c < 2147483647 → c + 1 ≤ (t.Cell c r).1.num_columns_)
      ∧ (0 ≤ r → r < 2147483647 → r + 1 ≤ (t.Cell c r).1.num_rows_)
      ∧ 6 ≤ ((Table.new clazz nhr nhc).Cell 5 3).1.num_columns_
      ∧ 4 ≤ ((Table.new clazz nhr nhc).Cell 5 3).1.num_rows_
      ∧ (t.Cell c r).1.Cell c r = ((t.Cell c r).1, (t.Cell c r).2)
      ∧ (t.CellDo c r f).Cell c r = (t.CellDo c r f, f (t.Cell c r).2) := by
  have hb := Cell_bounds t c r
  have e1 : ((Table.new clazz nhr nhc).Cell 5 3).1.num_columns_ = 6 := rfl
  have e2 : ((Table.new clazz nhr nhc).Cell 5 3).1.num_rows_ = 4 := rfl
  refine ⟨?_, ?_, by rw [e1], by rw [e2], Cell_again t c r, CellDo_then_Cell t c r f⟩
  · intro h0 h1
    rw [hb.1, addInt_exact c (by omega) h1]
    exact le_max_right _ _
  · intro h0 h1
    rw [hb.2.1, addInt_exact r (by omega) h1]
    exact le_max_right _ _

/-- Witness for C11 (amended): `Cell(5,3)` on a fresh table, the text `x` added through
the returned reference, then `Cell(5,3)` again: the bounds are at least 6 and 4, the
second call returns the cell holding the text and the table is unchanged by it. -/
theorem C11_Cell_idempotent_accessor_witness :
    (5 : Int) + 1 ≤ ((Table.new "t".toList 0 0).Cell 5 3).1.num_columns_
      ∧ (3 : Int) + 1 ≤ ((Table.new "t".toList 0 0).Cell 5 3).1.num_rows_
      ∧ (((Table.new "t".toList 0 0).CellDo 5 3 (fun cell => cell.Text "x".toList)).Cell 5 3).2.Render
          = "<div>x</div>".toList
      ∧ (((Table.new "t".toList 0 0).CellDo 5 3 (fun cell => cell.Text "x".toList)).Cell 5 3).1
          = (Table.new "t".toList 0 0).CellDo 5 3 (fun cell => cell.Text "x".toList) :=
  ⟨(C11_Cell_idempotent_accessor (Table.new "t".toList 0 0) 5 3
      (fun cell => cell.Text "x".toList) "t".toList 0 0).1 (by decide) (by decide),
   (C11_Cell_idempotent_accessor (Table.new "t".toList 0 0) 5 3
      (fun cell => cell.Text "x".toList) "t".toList 0 0).2.1 (by decide) (by decide),
   by decide,
   congrArg Prod.fst
    (C11_Cell_idempotent_accessor (Table.new "t".toList 0 0) 5 3
      (fun cell => cell.Text "x".toList) "t".toList 0 0).2.2.2.2.2⟩

/-- C12: after any sequence of `Cell` calls with non-negative coordinates, each below the
largest `int`, on a fresh table (each call possibly followed by a write through the
returned reference),
`numColumns` is 1 + the largest column passed and `numRows` is 1 + the largest row
passed: both are 0 for the empty sequence, every passed coordinate lies below them and
each is attained by one of the calls. No `Cell` call decreases either bound. -/
theorem C12_bounds_exact_and_monotone (clazz : List Char) (nhr nhc : Int)
    (calls : List ((Int × Int) × (Container → Container)))
    (h : ∀ call ∈ calls,
      0 ≤ call.1.1 ∧ call.1.1 < 2147483647 ∧ 0 ≤ call.1.2 ∧ call.1.2 < 2147483647) :
    (calls = [] →
        ((Table.new clazz nhr nhc).CellCalls calls).num_columns_ = 0
          ∧ ((Table.new clazz nhr nhc).CellCalls calls).num_rows_ = 0)
      ∧ (∀ call ∈ calls,
          1 + call.1.1 ≤ ((Table.new clazz nhr nhc).CellCalls calls).num_columns_
            ∧ 1 + call.1.2 ≤ ((Table.new clazz nhr nhc).CellCalls calls).num_rows_)
      ∧ (calls ≠ [] →
          (∃ call ∈ calls,
              ((Table.new clazz nhr nhc).CellCalls calls).num_columns_ = 1 + call.1.1)
            ∧ (∃ call ∈ calls,
              ((Table.new clazz nhr nhc).CellCalls calls).num_rows_ = 1 + call.1.2))
      ∧ (∀ (u : Table) (c r : Int),
          u.num_columns_ ≤ (u.Cell c r).1.num_columns_
            ∧ u.num_rows_ ≤ (u.Cell c r).1.num_rows_) := by
  have hc := CellCalls_columns_ge calls h (Table.new clazz nhr nhc)
  have hr := CellCalls_rows_ge calls h (Table.new clazz nhr nhc)
  refine ⟨?_, ?_, ?_, ?_⟩
  · rintro rfl
    exact ⟨rfl, rfl⟩
  · intro call hm
    have h1 := hc.2 call hm
    have h2 := hr.2 call hm
    constructor <;> omega
  · intro hne
    obtain ⟨call, rest, rfl⟩ := List.exists_cons_of_ne_nil hne
    have hm : call ∈ call :: rest := List.mem_cons_self _ _
    have h0 := h call hm
    have h1 := hc.2 call hm
    have h2 := hr.2 call hm
    constructor
    · rcases CellCalls_columns_attained (call :: rest) h (Table.new clazz nhr nhc) with e | e
      · have z : (Table.new clazz nhr nhc).num_columns_ = 0 := rfl
        omega
      · exact e
    · rcases CellCalls_rows_attained (call :: rest) h (Table.new clazz nhr nhc) with e | e
      · have z : (Table.new clazz nhr nhc).num_rows_ = 0 := rfl
        omega
      · exact e
  · intro u c r
    have hb := Cell_bounds u c r
    rw [hb.1, hb.2.1]
    exact ⟨le_max_left _ _, le_max_left _ _⟩

/-- Witness for C12: `Cell(5,3)` followed by `Cell(2,7)`, the second with a text added. -/
theorem C12_bounds_exact_and_monotone_witness :
    ((Table.new "t".toList 0 0).CellCalls
        [((5, 3), fun cell => cell), ((2, 7), fun cell => cell.Text "x".toList)]).num_columns_ = 6
      ∧ ((Table.new "t".toList 0 0).CellCalls
        [((5, 3), fun cell => cell), ((2, 7), fun cell => cell.Text "x".toList)]).num_rows_ = 8
      ∧ ∃ call ∈ [(((5 : Int), (3 : Int)), fun cell : Container => cell),
                   ((2, 7), fun cell => cell.Text "x".toList)],
          ((Table.new "t".toList 0 0).CellCalls
            [((5, 3), fun cell => cell), ((2, 7), fun cell => cell.Text "x".toList)]).num_columns_
            = 1 + call.1.1 :=
  ⟨by decide, by decide,
   ((C12_bounds_exact_and_monotone "t".toList 0 0
      [((5, 3), fun cell => cell), ((2, 7), fun cell => cell.Text "x".toList)]
      (by
        intro call hm
        simp only [List.mem_cons, List.mem_singleton, List.not_mem_nil, or_false] at hm
        rcases hm with rfl | rfl <;> decide)).2.2.1 (by simp)).1⟩

/-- C20: `Cell(c, r)` changes nothing but its own coordinate and the bounds: the cell
found at every other coordinate is the same before and after, a cell already present
at `(c, r)` is returned and the cell map is unchanged, an absent one is added as an empty
`div` container, the class and the header counts are unchanged, and the bounds become
the larger of the old bound and the `int` sums `c + 1` and `r + 1` (the exact sums below
the largest `int`), so they are not smaller than before. -/
theorem C20_Cell_frame (t : Table) (c r : Int) :
    (∀ k : Int × Int, k ≠ (c, r) → (t.Cell c r).1.cells_.lookup k = t.cells_.lookup k)
      ∧ (∀ cell : Container, t.cells_.lookup (c, r) = some cell →
          (t.Cell c r).1.cells_ = t.cells_ ∧ (t.Cell c r).2 = cell)
      ∧ (t.cells_.lookup (c, r) = none →
          (t.Cell c r).1.cells_ = t.cells_ ++ [((c, r), Container.new "div".toList)]
            ∧ (t.Cell c r).1.cells_.lookup (c, r) = some (Container.new "div".toList)
            ∧ (t.Cell c r).2 = Container.new "div".toList)
      ∧ (t.Cell c r).1.clazz_ = t.clazz_
      ∧ (t.Cell c r).1.num_header_rows_ = t.num_header_rows_
      ∧ (t.Cell c r).1.num_header_columns_ = t.num_header_columns_
      ∧ (t.Cell c r).1.num_columns_ = max t.num_columns_ (addInt c 1)
      ∧ (t.Cell c r).1.num_rows_ = max t.num_rows_ (addInt r 1)
      ∧ (-2147483648 ≤ c → c < 2147483647 →
          (t.Cell c r).1.num_columns_ = max t.num_columns_ (c + 1))
      ∧ (-2147483648 ≤ r → r < 2147483647 →
          (t.Cell c r).1.num_rows_ = max t.num_rows_ (r + 1))
      ∧ t.num_columns_ ≤ (t.Cell c r).1.num_columns_
      ∧ t.num_rows_ ≤ (t.Cell c r).1.num_rows_ := by
  have hb := Cell_bounds t c r
  refine ⟨fun k hk => Cell_cells_other t c r k hk, ?_, ?_, hb.2.2.1, hb.2.2.2.1, hb.2.2.2.2,
    hb.1, hb.2.1, ?_, ?_, ?_, ?_⟩
  · intro cell hl
    obtain ⟨clazz, cells, nc, nr, nhr, nhc⟩ := t
    have hl' : cells.lookup (c, r) = some cell := hl
    rw [Cell_of_present _ _ _ _ _ _ _ _ cell hl']
    exact ⟨rfl, rfl⟩
  · intro hl
    obtain ⟨clazz, cells, nc, nr, nhr, nhc⟩ := t
    have hl' : cells.lookup (c, r) = none := hl
    rw [Cell_of_absent _ _ _ _ _ _ _ _ hl']
    exact ⟨rfl, lookup_append_new _ _ _ hl', rfl⟩
  · intro h0 h1
    rw [hb.1, addInt_exact c (by omega) h1]
  · intro h0 h1
    rw [hb.2.1, addInt_exact r (by omega) h1]
  · rw [hb.1]; exact le_max_left _ _
  · rw [hb.2.1]; exact le_max_left _ _

/-- Witness for C20: on the table where `Cell(1,1)` holds the text `v`, `Cell(0,2)` leaves
the cell at (1,1) as it is, adds an empty `div` at (0,2) and grows the rows from 2 to 3;
`Cell(2147483647, 0)` leaves the two columns as they are. -/
theorem C20_Cell_frame_witness :
    ((((Table.new "t".toList 1 1).CellDo 1 1 (fun cell => cell.Text "v".toList)).Cell 0 2).1.cells_.lookup
        (1, 1))
        = ((Table.new "t".toList 1 1).CellDo 1 1 (fun cell => cell.Text "v".toList)).cells_.lookup
            (1, 1)
      ∧ (((Table.new "t".toList 1 1).CellDo 1 1 (fun cell => cell.Text "v".toList)).Cell 0 2).1.cells_.lookup
          (0, 2) = some (Container.new "div".toList)
      ∧ (((Table.new "t".toList 1 1).CellDo 1 1 (fun cell => cell.Text "v".toList)).Cell 0 2).1.num_rows_
          = 3
      ∧ (((Table.new "t".toList 1 1).CellDo 1 1 (fun cell => cell.Text "v".toList)).Cell 0 2).1.num_columns_
          = 2
      ∧ (((Table.new "t".toList 1 1).CellDo 1 1
            (fun cell => cell.Text "v".toList)).Cell 2147483647 0).1.num_columns_ = 2 :=
  ⟨(C20_Cell_frame ((Table.new "t".toList 1 1).CellDo 1 1 (fun cell => cell.Text "v".toList))
      0 2).1 (1, 1) (by decide),
   ((C20_Cell_frame ((Table.new "t".toList 1 1).CellDo 1 1 (fun cell => cell.Text "v".toList))
      0 2).2.2.1 rfl).2.1,
   by decide, by decide, by decide⟩

/-! ## Lemmas on `Table::Render` -/

theorem mem_rowRange (start bound r : Int) (h : r ∈ rowRange start bound) :
    start ≤ r ∧ r < bound := by
  simp only [rowRange, List.mem_map, List.mem_range] at h
  obtain ⟨i, hi, rfl⟩ := h
  have : (i : Int) < bound - start := by omega
  constructor
  · simp
  · simp only [Int.ofNat_eq_coe]; omega

theorem rowRange_of_ge (start bound : Int) (h : ¬ start < bound) : rowRange start bound = [] := by
  have : (bound - start).toNat = 0 := by omega
  simp [rowRange, this]

theorem length_rowRange (start bound : Int) :
    (rowRange start bound).length = (bound - start).toNat := by
  simp [rowRange]

theorem length_columnRange (n : Int) : (columnRange n).length = n.toNat := by
  simp [columnRange]

theorem headerCell_eq (cells : List ((Int × Int) × Container)) (c r : Int) :
    headerCell ((renderCells cells).lookup (c, r))
      = cellElement "th".toList (cells.lookup (c, r)) := by
  rw [lookup_renderCells]
  cases cells.lookup (c, r) <;> simp [headerCell, cellElement]

theorem bodyCell_eq (cells : List ((Int × Int) × Container)) (nhc c r : Int) :
    bodyCell nhc c ((renderCells cells).lookup (c, r))
      = cellElement (if c < nhc then "th".toList else "td".toList) (cells.lookup (c, r)) := by
  rw [lookup_renderCells]
  cases cells.lookup (c, r) <;> simp [bodyCell, cellElement]

theorem headerRow_eq (clazz : List Char) (cells : List ((Int × Int) × Container))
    (nc nr nhr nhc r : Int) (h : r < nhr) :
    headerRow (renderCells cells) nc r
      = Table.rowText ((Table.mk clazz cells nc nr nhr nhc).rowCells r) := by
  simp only [headerRow, Table.rowText, Table.rowCells, Table.num_columns_, Table.cells_,
    Table.num_header_rows_, Table.num_header_columns_, List.flatMap_def]
  congr 3
  apply List.map_congr_left
  intro c _
  rw [headerCell_eq]
  simp [cellTag, h]

theorem bodyRow_eq (clazz : List Char) (cells : List ((Int × Int) × Container))
    (nc nr nhr nhc r : Int) (h : ¬ r < nhr) :
    bodyRow (renderCells cells) nc nhc r
      = Table.rowText ((Table.mk clazz cells nc nr nhr nhc).rowCells r) := by
  simp only [bodyRow, Table.rowText, Table.rowCells, Table.num_columns_, Table.cells_,
    Table.num_header_rows_, Table.num_header_columns_, List.flatMap_def]
  congr 3
  apply List.map_congr_left
  intro c _
  rw [bodyCell_eq]
  simp [cellTag, h]

theorem Render_rows (t : Table) :
    t.Render
      = "<table class=\"".toList ++ HtmlEscape t.clazz_ ++ "\">".toList
          ++ (if 0 < t.num_header_rows_ then
                "<thead>".toList
                  ++ ((rowRange 0 t.num_header_rows_).map
                        (fun r => Table.rowText (t.rowCells r))).flatten
                  ++ "</thead>".toList
              else [])
          ++ "<tbody>".toList
          ++ ((rowRange (max 0 t.num_header_rows_) t.num_rows_).map
                (fun r => Table.rowText (t.rowCells r))).flatten
          ++ "</tbody>".toList ++ "</table>".toList := by
  obtain ⟨clazz, cells, nc, nr, nhr, nhc⟩ := t
  have hH : (rowRange 0 nhr).flatMap (headerRow (renderCells cells) nc)
      = ((rowRange 0 nhr).map
          (fun r => Table.rowText ((Table.mk clazz cells nc nr nhr nhc).rowCells r))).flatten := by
    rw [List.flatMap_def]
    congr 1
    apply List.map_congr_left
    intro r hr
    exact headerRow_eq clazz cells nc nr nhr nhc r (mem_rowRange _ _ _ hr).2
  have hB : ∀ start : Int, nhr ≤ start →
      (rowRange start nr).flatMap (bodyRow (renderCells cells) nc nhc)
      = ((rowRange start nr).map
          (fun r => Table.rowText ((Table.mk clazz cells nc nr nhr nhc).rowCells r))).flatten := by
    intro start hs
    rw [List.flatMap_def]
    congr 1
    apply List.map_congr_left
    intro r hr
    have := (mem_rowRange _ _ _ hr).1
    exact bodyRow_eq clazz cells nc nr nhr nhc r (by omega)
  simp only [Table.Render, renderTable, Table.clazz_, Table.num_header_rows_, Table.num_rows_]
  by_cases h0 : 0 < nhr
  · have hm : max 0 nhr = nhr := max_eq_right (le_of_lt h0)
    simp only [h0, if_true, hm, hH]
    by_cases h1 : nhr < nr
    · simp only [h1, if_true, hB nhr (le_refl _)]
      simp only [List.append_assoc]
    · simp only [h1, if_false, rowRange_of_ge nhr nr h1]
      simp
  · have hm : max 0 nhr = 0 := max_eq_left (not_lt.mp h0)
    simp only [h0, if_false, hm]
    by_cases h1 : 0 < nr
    · simp only [h1, if_true, hB 0 (not_lt.mp h0)]
      simp only [List.append_assoc, List.append_nil]
    · simp only [h1, if_false, rowRange_of_ge 0 nr h1]
      simp

theorem mem_rowRange_iff (start bound r : Int) :
    r ∈ rowRange start bound ↔ start ≤ r ∧ r < bound := by
  constructor
  · exact mem_rowRange start bound r
  · rintro ⟨h1, h2⟩
    simp only [rowRange, List.mem_map, List.mem_range]
    refine ⟨(r - start).toNat, by omega, ?_⟩
    simp only [Int.ofNat_eq_coe]
    omega

theorem mem_columnRange_iff (n c : Int) : c ∈ columnRange n ↔ 0 ≤ c ∧ c < n := by
  simp only [columnRange, List.mem_map, List.mem_range, Int.ofNat_eq_coe]
  constructor
  · rintro ⟨i, hi, rfl⟩
    omega
  · rintro ⟨h1, h2⟩
    exact ⟨c.toNat, by omega, by omega⟩

theorem rowRange_increasing (start bound : Int) :
    (rowRange start bound).Pairwise (fun a b => a < b) := by
  unfold rowRange
  refine List.Pairwise.map _ ?_ (List.pairwise_lt_range _)
  intro a b hab
  simp only [Int.ofNat_eq_coe]
  omega

theorem columnRange_increasing (n : Int) :
    (columnRange n).Pairwise (fun a b => a < b) := by
  unfold columnRange
  refine List.Pairwise.map _ ?_ (List.pairwise_lt_range _)
  intro a b hab
  simp only [Int.ofNat_eq_coe]
  omega

theorem occursIn_append_right (p suf : List Char) :
    occursIn p (p ++ suf) = true := by
  cases p with
  | nil => cases suf <;> simp [occursIn]
  | cons a rest =>
    have : (a :: rest).isPrefixOf (a :: (rest ++ suf)) = true := by
      rw [List.isPrefixOf_iff_prefix]
      exact ⟨suf, rfl⟩
    show occursIn (a :: rest) (a :: (rest ++ suf)) = true
    simp only [occursIn, this, Bool.true_or]

theorem occursIn_of_infix (p l : List Char) (h : p <:+: l) : occursIn p l = true := by
  obtain ⟨pre, suf, rfl⟩ := h
  induction pre with
  | nil => simpa using occursIn_append_right p suf
  | cons c cs ih =>
    simp only [List.cons_append, List.append_assoc, occursIn, Bool.or_eq_true]
    right
    simpa using ih

theorem occursIn_append_of_no_lt (q x y : List Char) (h : ∀ c ∈ x, c ≠ '<') :
    occursIn ('<' :: q) (x ++ y) = occursIn ('<' :: q) y := by
  induction x with
  | nil => rfl
  | cons c cs ih =>
    have hc : c ≠ '<' := h c (List.mem_cons_self c cs)
    have hc' : ¬ '<' = c := fun e => hc e.symm
    simp [occursIn, List.isPrefixOf, hc', ih (fun a ha => h a (List.mem_cons_of_mem c ha))]

theorem shell_no_tr (clazz : List Char) :
    ¬ ("<tr>".toList <:+:
        "<table class=\"".toList ++ HtmlEscape clazz ++ "\"><tbody></tbody></table>".toList) := by
  intro h
  have hs := occursIn_of_infix _ _ h
  have e : "<table class=\"".toList ++ HtmlEscape clazz
        ++ "\"><tbody></tbody></table>".toList
      = '<' :: 't' :: 'a' :: 'b' :: 'l' :: 'e' :: ' ' :: 'c' :: 'l' :: 'a' :: 's' :: 's' :: '='
          :: '"' :: (HtmlEscape clazz ++ "\"><tbody></tbody></table>".toList) := by
    simp
  have e' : "<tr>".toList = '<' :: "tr>".toList := rfl
  rw [e, e'] at hs
  simp only [occursIn] at hs
  rw [occursIn_append_of_no_lt _ _ _ (HtmlEscape_no_lt clazz)] at hs
  have hz : occursIn ('<' :: "tr>".toList) "\"><tbody></tbody></table>".toList = false := by
    decide
  rw [hz] at hs
  simp [List.isPrefixOf] at hs

theorem Render_fresh (clazz : List Char) (nhr nhc : Int) :
    (Table.new clazz nhr nhc).Render
      = "<table class=\"".toList ++ HtmlEscape clazz ++ "\">".toList
          ++ (if 0 < nhr then
                "<thead>".toList ++ (List.replicate nhr.toNat "<tr></tr>".toList).flatten
                  ++ "</thead>".toList
              else [])
          ++ "<tbody></tbody></table>".toList := by
  rw [Render_rows]
  have hc : (fun r : Int => Table.rowText ((Table.mk clazz [] 0 0 nhr nhc).rowCells r))
      = fun _ => "<tr></tr>".toList := by
    funext r
    rfl
  have hb : rowRange (max 0 nhr) 0 = [] := rowRange_of_ge _ _ (by simp)
  simp only [Table.new, Table.clazz_, Table.num_header_rows_, Table.num_rows_, hb, hc,
    List.map_const', length_rowRange, sub_zero, List.map_nil, List.flatten_nil, List.append_nil]
  simp

/-! ## Theorems on `Table::Render` -/

/-- C13: in `Table::Render` the element name of the cell at `(column, row)` is decided by
the row first and the column second. The output consists of rows whose cell at column `c`
of row `r` is the element named `cellTag` around the cell found at `(c, r)`, self-closing
when none is stored; `cellTag` is `th` in every row below `numHeaderRows` whatever
`numHeaderColumns` is, and in a body row it is `th` for a column below `numHeaderColumns`
and `td` otherwise. The `<thead>` rows are rows below `numHeaderRows`, the `<tbody>` rows
are not. -/
theorem C13_cell_tag_row_then_column (t : Table) :
    t.Render
        = "<table class=\"".toList ++ HtmlEscape t.clazz_ ++ "\">".toList
            ++ (if 0 < t.num_header_rows_ then
                  "<thead>".toList
                    ++ ((rowRange 0 t.num_header_rows_).map
                          (fun r => "<tr>".toList ++ (t.rowCells r).flatten ++ "</tr>".toList)).flatten
                    ++ "</thead>".toList
                else [])
            ++ "<tbody>".toList
            ++ ((rowRange (max 0 t.num_header_rows_) t.num_rows_).map
                  (fun r => "<tr>".toList ++ (t.rowCells r).flatten ++ "</tr>".toList)).flatten
            ++ "</tbody>".toList ++ "</table>".toList
      ∧ (∀ r : Int, t.rowCells r
          = (columnRange t.num_columns_).map (fun c =>
              cellElement (cellTag t.num_header_rows_ t.num_header_columns_ c r)
                (t.cells_.lookup (c, r))))
      ∧ (∀ r ∈ rowRange 0 t.num_header_rows_, r < t.num_header_rows_)
      ∧ (∀ r ∈ rowRange (max 0 t.num_header_rows_) t.num_rows_, t.num_header_rows_ ≤ r)
      ∧ (∀ nhr nhc c r : Int, r < nhr → cellTag nhr nhc c r = "th".toList)
      ∧ (∀ nhr nhc c r : Int, nhr ≤ r → c < nhc → cellTag nhr nhc c r = "th".toList)
      ∧ (∀ nhr nhc c r : Int, nhr ≤ r → nhc ≤ c → cellTag nhr nhc c r = "td".toList)
      ∧ (∀ tag : List Char, cellElement tag none = "<".toList ++ tag ++ "/>".toList)
      ∧ (∀ (tag : List Char) (cell : Container), cellElement tag (some cell)
          = "<".toList ++ tag ++ ">".toList ++ cell.Render ++ "</".toList ++ tag ++ ">".toList) := by
  refine ⟨Render_rows t, fun _ => rfl, ?_, ?_, ?_, ?_, ?_, fun _ => rfl, fun _ _ => rfl⟩
  · intro r hr
    exact (mem_rowRange _ _ _ hr).2
  · intro r hr
    have := (mem_rowRange _ _ _ hr).1
    exact le_trans (le_max_right _ _) this
  · intro nhr nhc c r h
    simp [cellTag, h]
  · intro nhr nhc c r h1 h2
    simp [cellTag, not_lt.mpr h1, h2]
  · intro nhr nhc c r h1 h2
    simp [cellTag, not_lt.mpr h1, not_lt.mpr h2]

/-- Witness for C13: a table with one header row and two header columns, three columns
and two rows, in which only the cell (2,1) is populated. -/
theorem C13_cell_tag_row_then_column_witness :
    ((Table.new "t".toList 1 2).CellDo 2 1 (fun cell => cell.Text "v".toList)).Render
      = ("<table class=\"t\"><thead><tr><th/><th/><th/></tr></thead>".toList
          ++ "<tbody><tr><th/><th/><td><div>v</div></td></tr></tbody></table>".toList) :=
  (C13_cell_tag_row_then_column
    ((Table.new "t".toList 1 2).CellDo 2 1 (fun cell => cell.Text "v".toList))).1.trans
    (by decide)

/-- C14 as stated fails: a table on which `Cell` was never called but which has one
header row renders a `<thead>` holding an empty `<tr></tr>`, so the output is not the bare
shell and a `<tr>` occurs in it. -/
theorem C14_header_rows_without_cells_counterexample :
    (Table.new "c".toList 1 0).Render
        = "<table class=\"c\"><thead><tr></tr></thead><tbody></tbody></table>".toList
      ∧ (Table.new "c".toList 1 0).Render ≠ "<table class=\"c\"><tbody></tbody></table>".toList
      ∧ "<tr>".toList <:+: (Table.new "c".toList 1 0).Render := by
  refine ⟨by decide, by decide, ?_⟩
  exact ⟨"<table class=\"c\"><thead>".toList, "</tr></thead><tbody></tbody></table>".toList,
    by decide⟩

/-- C14, amended: for a table on which `Cell` was never called, for every class string and
every header counts, `Render` returns the `<table class=...>` open tag, then, only when
`numHeaderRows > 0`, a `<thead>` holding `numHeaderRows` empty `<tr></tr>` rows, then an
empty `<tbody></tbody>` and the `</table>` close tag. When `numHeaderRows <= 0` the output
is the bare shell and no `<tr>` occurs in it. -/
theorem C14_empty_table_shell (clazz : List Char) (nhr nhc : Int) :
    (Table.new clazz nhr nhc).Render
        = "<table class=\"".toList ++ HtmlEscape clazz ++ "\">".toList
            ++ (if 0 < nhr then
                  "<thead>".toList ++ (List.replicate nhr.toNat "<tr></tr>".toList).flatten
                    ++ "</thead>".toList
                else [])
            ++ "<tbody></tbody></table>".toList
      ∧ (nhr ≤ 0 →
          (Table.new clazz nhr nhc).Render
              = "<table class=\"".toList ++ HtmlEscape clazz
                  ++ "\"><tbody></tbody></table>".toList
            ∧ ¬ ("<tr>".toList <:+: (Table.new clazz nhr nhc).Render)) := by
  refine ⟨Render_fresh clazz nhr nhc, ?_⟩
  intro h
  have e : (Table.new clazz nhr nhc).Render
      = "<table class=\"".toList ++ HtmlEscape clazz ++ "\"><tbody></tbody></table>".toList := by
    rw [Render_fresh, if_neg (not_lt.mpr h)]
    simp
  rw [e]
  exact ⟨rfl, shell_no_tr clazz⟩

/-- Witness for C14 (amended): no header rows, three header columns, class `a&b`. -/
theorem C14_empty_table_shell_witness :
    (0 : Int) ≤ 0
      ∧ (Table.new "a&b".toList 0 3).Render
          = "<table class=\"a&amp;b\"><tbody></tbody></table>".toList
      ∧ ¬ ("<tr>".toList <:+: (Table.new "a&b".toList 0 3).Render) :=
  ⟨le_refl _,
   (((C14_empty_table_shell "a&b".toList 0 3).2 (le_refl _)).1).trans (by decide),
   ((C14_empty_table_shell "a&b".toList 0 3).2 (le_refl _)).2⟩

/-- C17: the shape of `Table::Render` for a table with non-negative header counts: the
open tag with the escaped class; then, exactly when `numHeaderRows > 0`, one `<thead>`
block with the rows `0 .. numHeaderRows-1` (so `numHeaderRows` of them, also beyond
`numRows`); then one `<tbody>` block with the rows `numHeaderRows .. numRows-1` (none when
`numHeaderRows >= numRows`); then `</table>`. Every row holds one cell for each column
`0 .. numColumns-1` in column order, and the rows number `max numHeaderRows numRows`. -/
theorem C17_Render_shape (t : Table) (h : 0 ≤ t.num_header_rows_) :
    t.Render
        = "<table class=\"".toList ++ HtmlEscape t.clazz_ ++ "\">".toList
            ++ (if 0 < t.num_header_rows_ then
                  "<thead>".toList
                    ++ ((rowRange 0 t.num_header_rows_).map
                          (fun r => "<tr>".toList ++ (t.rowCells r).flatten ++ "</tr>".toList)).flatten
                    ++ "</thead>".toList
                else [])
            ++ "<tbody>".toList
            ++ ((rowRange t.num_header_rows_ t.num_rows_).map
                  (fun r => "<tr>".toList ++ (t.rowCells r).flatten ++ "</tr>".toList)).flatten
            ++ "</tbody>".toList ++ "</table>".toList
      ∧ (∀ r : Int, r ∈ rowRange 0 t.num_header_rows_ ↔ 0 ≤ r ∧ r < t.num_header_rows_)
      ∧ (∀ r : Int, r ∈ rowRange t.num_header_rows_ t.num_rows_
          ↔ t.num_header_rows_ ≤ r ∧ r < t.num_rows_)
      ∧ (rowRange 0 t.num_header_rows_).Pairwise (fun a b => a < b)
      ∧ (rowRange t.num_header_rows_ t.num_rows_).Pairwise (fun a b => a < b)
      ∧ ((rowRange 0 t.num_header_rows_).length : Int) = t.num_header_rows_
      ∧ (t.num_rows_ ≤ t.num_header_rows_ → rowRange t.num_header_rows_ t.num_rows_ = [])
      ∧ (((rowRange 0 t.num_header_rows_).length
            + (rowRange t.num_header_rows_ t.num_rows_).length : Nat) : Int)
          = max t.num_header_rows_ t.num_rows_
      ∧ (∀ r : Int, (t.rowCells r).length = t.num_columns_.toNat
          ∧ t.rowCells r = (columnRange t.num_columns_).map (fun c =>
              cellElement (cellTag t.num_header_rows_ t.num_header_columns_ c r)
                (t.cells_.lookup (c, r))))
      ∧ (∀ c : Int, c ∈ columnRange t.num_columns_ ↔ 0 ≤ c ∧ c < t.num_columns_)
      ∧ (columnRange t.num_columns_).Pairwise (fun a b => a < b) := by
  have hm : max 0 t.num_header_rows_ = t.num_header_rows_ := max_eq_right h
  refine ⟨?_, mem_rowRange_iff _ _, mem_rowRange_iff _ _, rowRange_increasing _ _,
    rowRange_increasing _ _, ?_, ?_, ?_, ?_, mem_columnRange_iff _, columnRange_increasing _⟩
  · have := Render_rows t
    rw [hm] at this
    exact this
  · rw [length_rowRange]; omega
  · intro hle
    exact rowRange_of_ge _ _ (not_lt.mpr hle)
  · rw [length_rowRange, length_rowRange]
    rcases le_total t.num_header_rows_ t.num_rows_ with hle | hle
    · rw [max_eq_right hle]; omega
    · rw [max_eq_left hle]; omega
  · intro r
    refine ⟨?_, rfl⟩
    simp [Table.rowCells, length_columnRange]

/-- Witness for C17: two header rows but a single row of cells, two columns. -/
theorem C17_Render_shape_witness :
    (0 : Int) ≤ ((Table.new "t".toList 2 0).CellDo 1 0 (fun cell => cell)).num_header_rows_
      ∧ ((Table.new "t".toList 2 0).CellDo 1 0 (fun cell => cell)).Render
          = ("<table class=\"t\"><thead><tr><th/><th><div/></th></tr>".toList
              ++ "<tr><th/><th/></tr></thead><tbody></tbody></table>".toList) :=
  ⟨by decide,
   (C17_Render_shape ((Table.new "t".toList 2 0).CellDo 1 0 (fun cell => cell))
      (by decide)).1.trans (by decide)⟩

/-! ## Injectivity of `HtmlEscape` -/

theorem escapeChar_class (c : Char) :
    c = '&' ∨ c = '<' ∨ c = '>' ∨ c = '"' ∨ c = '\x27' ∨ (escapeChar c = [c] ∧ c ≠ '&') := by
  by_cases h1 : c = '&'
  · exact Or.inl h1
  by_cases h2 : c = '<'
  · exact Or.inr (Or.inl h2)
  by_cases h3 : c = '>'
  · exact Or.inr (Or.inr (Or.inl h3))
  by_cases h4 : c = '"'
  · exact Or.inr (Or.inr (Or.inr (Or.inl h4)))
  by_cases h5 : c = '\x27'
  · exact Or.inr (Or.inr (Or.inr (Or.inr (Or.inl h5))))
  · exact Or.inr (Or.inr (Or.inr (Or.inr (Or.inr
      ⟨escapeChar_of_not_target c ⟨h1, h2, h3, h4, h5⟩, h1⟩))))

theorem escapeChar_append_inj (x y : Char) (u v : List Char)
    (h : escapeChar x ++ u = escapeChar y ++ v) : x = y ∧ u = v := by
  have e1 : escapeChar '&' = ['&', 'a', 'm', 'p', ';'] := by decide
  have e2 : escapeChar '<' = ['&', 'l', 't', ';'] := by decide
  have e3 : escapeChar '>' = ['&', 'g', 't', ';'] := by decide
  have e4 : escapeChar '"' = ['&', 'q', 'u', 'o', 't', ';'] := by decide
  have e5 : escapeChar '\x27' = ['&', 'a', 'p', 'o', 's', ';'] := by decide
  rcases escapeChar_class x with rfl | rfl | rfl | rfl | rfl | ⟨hx, hxn⟩ <;>
    rcases escapeChar_class y with rfl | rfl | rfl | rfl | rfl | ⟨hy, hyn⟩ <;>
    (try rw [hx] at h) <;>
    (try rw [hy] at h) <;>
    simp only [e1, e2, e3, e4, e5, List.cons_append, List.nil_append, List.cons.injEq]
      at h <;>
    first
      | exact ⟨rfl, by tauto⟩
      | (exfalso; revert h; simp; done)
      | (exfalso; exact hyn h.1.symm)
      | (exfalso; exact hxn h.1)
      | exact ⟨h.1, h.2⟩

theorem HtmlEscape_injective (a : List Char) :
    ∀ b : List Char, HtmlEscape a = HtmlEscape b → a = b := by
  induction a with
  | nil =>
    intro b h
    cases b with
    | nil => rfl
    | cons y ys =>
      have := length_HtmlEscape_ge (y :: ys)
      rw [← h, HtmlEscape_nil] at this
      simp at this
  | cons x xs ih =>
    intro b h
    cases b with
    | nil =>
      have := length_HtmlEscape_ge (x :: xs)
      rw [h, HtmlEscape_nil] at this
      simp at this
    | cons y ys =>
      rw [HtmlEscape_cons, HtmlEscape_cons] at h
      obtain ⟨hxy, hrest⟩ := escapeChar_append_inj x y _ _ h
      rw [hxy, ih ys hrest]

/-- C19: `HtmlEscape` is injective: two texts with the same escaped form are equal. -/
theorem C19_HtmlEscape_injective (a b : List Char) (h : HtmlEscape a = HtmlEscape b) :
    a = b :=
  HtmlEscape_injective a b h

/-- Witness for C19: the escaped form `a&lt;b&amp;lt;` comes from `a<b&lt;` only. -/
theorem C19_HtmlEscape_injective_witness :
    HtmlEscape "a<b&lt;".toList = HtmlEscape ("a<b".toList ++ "&lt;".toList)
      ∧ HtmlEscape "a<b&lt;".toList = "a&lt;b&amp;lt;".toList
      ∧ "a<b&lt;".toList = "a<b".toList ++ "&lt;".toList :=
  ⟨by decide, by decide,
   C19_HtmlEscape_injective "a<b&lt;".toList ("a<b".toList ++ "&lt;".toList) (by decide)⟩

/-! ## Cells inside the grid -/

theorem CellDo_lookup_self (t : Table) (c r : Int) (f : Container → Container) :
    (t.CellDo c r f).cells_.lookup (c, r) = some (f (t.Cell c r).2) := by
  rw [CellDo_eq]
  show (Table.storeCell (c, r) (f (t.Cell c r).2) (t.Cell c r).1.cells_).lookup (c, r) = _
  rw [lookup_storeCell_self, Cell_lookup_self t c r]
  rfl

theorem modifyLastItem_append_container (g : Container → Container) (items : List Item)
    (child : Container) :
    modifyLastItem g (items ++ [Item.container child])
      = items ++ [Item.container (g child)] := by
  induction items with
  | nil => rfl
  | cons a rest ih =>
    cases rest with
    | nil => rfl
    | cons b rest' =>
      show a :: modifyLastItem g ((b :: rest') ++ [Item.container child]) = _
      rw [ih]
      rfl

theorem through_lastItem_NewItem (c : Container) (child : Container)
    (g : Container → Container) :
    (c.NewItem (Item.container child)).through Ref.lastItem g
      = c.NewItem (Item.container (g child)) := by
  obtain ⟨tag, attrs, items⟩ := c
  simp only [Container.NewItem, Container.through, modifyLastItem_append_container]

theorem NewDiv_eq (p : Container) (clazz : List Char) :
    p.NewDiv clazz
      = (p.NewItem (Item.container
            ((Container.new "div".toList).Attribute "class".toList clazz)), Ref.lastItem) := by
  simp only [Container.NewDiv, through_lastItem_NewItem]

theorem items_NewItem (c : Container) (item : Item) :
    (c.NewItem item).items_ = c.items_ ++ [item]
      ∧ (c.NewItem item).tag_ = c.tag_
      ∧ (c.NewItem item).attributes_ = c.attributes_ := by
  obtain ⟨tag, attrs, items⟩ := c
  exact ⟨rfl, rfl, rfl⟩

/-- What `Container::Div` does for every parent, class and populate routine: it appends
the container built by the free `Div` as the last child, leaving the parent's tag,
attributes and earlier children alone, and a call chained on its return value is applied
to that child. -/
theorem Container_Div_chain (p : Container) (clazz t : List Char)
    (f : Container → Container) :
    (p.Div clazz f).1.items_
        = p.items_ ++ [Item.container (f (Container.mk (some "div".toList)
            [("class".toList, clazz)] []))]
      ∧ (p.Div clazz f).1.tag_ = p.tag_
      ∧ (p.Div clazz f).1.attributes_ = p.attributes_
      ∧ ((p.Div clazz f).1.through (p.Div clazz f).2 (fun x => x.Text t)).items_
          = p.items_ ++ [Item.container ((f (Container.mk (some "div".toList)
              [("class".toList, clazz)] [])).Text t)] := by
  have hd : p.Div clazz f
      = (p.NewItem (Item.container (f (Container.mk (some "div".toList)
          [("class".toList, clazz)] []))), Ref.lastItem) := rfl
  rw [hd]
  refine ⟨(items_NewItem _ _).1, (items_NewItem _ _).2.1, (items_NewItem _ _).2.2, ?_⟩
  rw [through_lastItem_NewItem]
  exact (items_NewItem _ _).1

/-- C15: the claim is that `Container::Div` returns the parent, so that
`p.Div(c, f).Text(t)` adds the text to `p` as a sibling after the new `div`. The code at
the failing input, an empty untagged `p`, class `c`, a populate routine that adds nothing
and the text `t`: the new `div` is appended to `p`, but the call chained on the return
value puts the text inside it, giving `<div class="c">t</div>` where the claim's sibling
form is `<div class="c"/>t`. -/
theorem C15_Div_chain_at_failing_input :
    (Container.untagged.Div "c".toList (fun div => div)).1.Render
        = "<div class=\"c\"/>".toList
      ∧ ((Container.untagged.Div "c".toList (fun div => div)).1.through
          (Container.untagged.Div "c".toList (fun div => div)).2
          (fun x => x.Text "t".toList)).Render
        = "<div class=\"c\">t</div>".toList
      ∧ ((Container.untagged.Div "c".toList (fun div => div)).1.Text "t".toList).Render
        = "<div class=\"c\"/>t".toList
      ∧ ((Container.untagged.Div "c".toList (fun div => div)).1.through
          (Container.untagged.Div "c".toList (fun div => div)).2
          (fun x => x.Text "t".toList)).Render
        ≠ ((Container.untagged.Div "c".toList (fun div => div)).1.Text "t".toList).Render := by
  refine ⟨by decide, by decide, by decide, by decide⟩

/-- C16: the callback style and the direct-handle style build the same tree: the parent
after `p.Div(c, f)` equals the parent after `p.NewDiv(c)` followed by `f` applied through
the returned reference; in both the appended child is the container built by the free
function `Div(c, f)`, and the two parents render to the same string. -/
theorem C16_Div_equals_NewDiv_then_populate (p : Container) (clazz : List Char)
    (f : Container → Container) :
    (p.Div clazz f).1 = (p.NewDiv clazz).1.through (p.NewDiv clazz).2 f
      ∧ (p.Div clazz f).1.items_ = p.items_ ++ [Item.container (Div clazz f)]
      ∧ ((p.NewDiv clazz).1.through (p.NewDiv clazz).2 f).items_
          = p.items_ ++ [Item.container (Div clazz f)]
      ∧ (p.NewDiv clazz).1.items_
          = p.items_ ++ [Item.container (Div clazz (fun div => div))]
      ∧ (p.Div clazz f).1.Render
          = ((p.NewDiv clazz).1.through (p.NewDiv clazz).2 f).Render := by
  have hn : (p.NewDiv clazz).1.through (p.NewDiv clazz).2 f
      = p.NewItem (Item.container (Div clazz f)) := by
    rw [NewDiv_eq]
    exact through_lastItem_NewItem _ _ _
  have hd : (p.Div clazz f).1 = p.NewItem (Item.container (Div clazz f)) := rfl
  refine ⟨by rw [hn, hd], ?_, ?_, ?_, by rw [hn, hd]⟩
  · rw [hd]; exact (items_NewItem _ _).1
  · rw [hn]; exact (items_NewItem _ _).1
  · rw [NewDiv_eq]; exact (items_NewItem _ _).1

end grpc_zviz.html
